import Mathlib

/-!
Verification of the slope core (src/slope/core.py and the Sub operator of
src/myad/ops.py and src/slope/ops.py) against its natural-language
specification.  The Python code is shallowly embedded: Python objects with
identity become structures carrying a numeric id, Python dicts keyed by
object identity become functional environments over those ids, raised
exceptions become `Except`/`Option` results, and NumPy tensors become a
`Tensor` structure holding a shape, a dtype tag and flat integer data.
-/

namespace Slope

/-- The shape/dtype descriptor (`Typecheckor` in core.py).  The dtype is a
numeric tag (0 = float32, 1 = int8, ...); equality is shape + dtype. -/
structure Typecheckor where
  shape : List Nat
  dtype : Nat
deriving DecidableEq, Repr

/-- A concrete tensor value: shape, dtype tag and flattened data.  The
numeric kernels of the backend are outside the core; integer data is enough
for every core algorithm, which only moves values around. -/
structure Tensor where
  shape : List Nat
  dtype : Nat
  data : List Int
deriving DecidableEq, Repr

/-- `Machine.get_aval` on a concrete tensor: its shape/dtype descriptor. -/
def get_aval (t : Tensor) : Typecheckor := ⟨t.shape, t.dtype⟩

/-- Number of elements described by a shape. -/
def numel (shape : List Nat) : Nat := shape.foldl (· * ·) 1

/-- `environment.zeros(shape, dtype)`: the all-zero tensor of an abstract value. -/
def zeros (a : Typecheckor) : Tensor := ⟨a.shape, a.dtype, List.replicate (numel a.shape) 0⟩

/-- Elementwise tensor addition (the `+` used to accumulate cotangents). -/
def tadd (x y : Tensor) : Tensor := ⟨x.shape, x.dtype, x.data.zipWith (· + ·) y.data⟩

/-- Elementwise tensor subtraction (`x - y`). -/
def tsub (x y : Tensor) : Tensor := ⟨x.shape, x.dtype, x.data.zipWith (· - ·) y.data⟩

/-- Scalar multiple of a tensor (used to state linearity of jvp rules). -/
def tsmul (a : Int) (x : Tensor) : Tensor := ⟨x.shape, x.dtype, x.data.map (a * ·)⟩

/-- A graph node handle (`Var` in core.py).  Python compares Vars by object
identity; the model gives every distinct object a distinct `id`. -/
structure Var where
  id : Nat
  aval : Typecheckor
deriving DecidableEq, Repr

/-- `Atom = Var | Lit`: an instruction input or program output. -/
inductive Atom where
  | var (v : Var)
  | lit (t : Tensor)
deriving DecidableEq, Repr

/-- The abstract value of an atom: a Var carries its aval, a Lit the aval of
its value (`typecheck_atom`'s result on each case). -/
def atomAval : Atom → Typecheckor
  | .var v => v.aval
  | .lit t => get_aval t

/-- The error classes raised by the typechecking code: `TypeError` from the
explicit `raise TypeError` sites, `assertError` from a failing `assert`
(such as the length check inside `list_zip`), and `attributeError` from
calling a missing method (`Typecheckor.reshape` in the binary rule). -/
inductive TcErr where
  | typeError
  | assertError
  | attributeError
deriving DecidableEq, Repr

/-- An argument of the transposed run: either a concrete value or a
`PrimalProxy` placeholder carrying only an abstract value. -/
inductive TArg where
  | val (t : Tensor)
  | proxy (aval : Typecheckor)
deriving DecidableEq, Repr

/-- A registered primitive operator: the behavior bundle of spec §4.1 that
the core accesses (static params are folded into the closures).  `typecheck`
computes output avals or fails; `eval` is the eager kernel; `T` is the
transpose rule, taking output cotangents and the inputs (some of which are
`PrimalProxy`) and returning an optional cotangent per input. -/
structure Operator where
  name : String
  typecheck : List Typecheckor → Except TcErr (List Typecheckor)
  eval : List Tensor → Option (List Tensor)
  T : List Tensor → List TArg → Option (List (Option Tensor))

/-- `Instruction`: operator, ordered input atoms and output binders (static
params live inside the operator closures). -/
structure Instruction where
  op : Operator
  inputs : List Atom
  out_binders : List Var

/-- `Program`: input binders (constants first), instructions, outputs,
number of leading constant inputs, and a name. -/
structure Program where
  in_binders : List Var
  instructions : List Instruction
  outs : List Atom
  num_consts : Nat := 0
  name : String := "my_program"

/-- A program's overall type signature. -/
structure ProgramType where
  in_types : List Typecheckor
  out_types : List Typecheckor
deriving DecidableEq

/-! ## List utilities (`partition_list`, `merge_lists`, `split_list`) -/

/-- `partition_list(bs, l)`: route each element of `l` to the second list
when its flag is true, to the first when false, keeping relative order
(`lists[b].append(x)` over `zip(bs, l)`; the source asserts the lengths are
equal, which theorems carry as a hypothesis). -/
def partition_list : List Bool → List α → List α × List α
  | b :: bs, x :: l =>
      let p := partition_list bs l
      if b then (p.1, x :: p.2) else (x :: p.1, p.2)
  | _, _ => ([], [])

/-- `merge_lists(which, l1, l2)`: rebuild a list taking from `l2` on a true
flag and from `l1` on a false one; the trailing assert that both iterators
are exhausted makes the result `none` when the lengths do not fit. -/
def merge_lists : List Bool → List α → List α → Option (List α)
  | [], [], [] => some []
  | true :: bs, l1, x :: l2 => (merge_lists bs l1 l2).map (x :: ·)
  | false :: bs, x :: l1, l2 => (merge_lists bs l1 l2).map (x :: ·)
  | _, _, _ => none

/-- The elements of `l` whose flag is `b`, in order. -/
def maskFilter (b : Bool) (bs : List Bool) (l : List α) : List α :=
  (bs.zip l).filterMap (fun p => if p.1 = b then some p.2 else none)

theorem partition_list_eq_maskFilter (bs : List Bool) (l : List α)
    (h : bs.length = l.length) :
    partition_list bs l = (maskFilter false bs l, maskFilter true bs l) := by
  induction bs generalizing l with
  | nil =>
    cases l with
    | nil => rfl
    | cons x l => simp at h
  | cons b bs ih =>
    cases l with
    | nil => simp at h
    | cons x l =>
      simp only [List.length_cons, Nat.succ.injEq] at h
      cases b <;>
        simp [partition_list, maskFilter, ih l h, List.zip_cons_cons, List.filterMap_cons]

theorem merge_lists_partition (bs : List Bool) (l : List α)
    (h : bs.length = l.length) :
    merge_lists bs (partition_list bs l).1 (partition_list bs l).2 = some l := by
  induction bs generalizing l with
  | nil =>
    cases l with
    | nil => rfl
    | cons x l => simp at h
  | cons b bs ih =>
    cases l with
    | nil => simp at h
    | cons x l =>
      simp only [List.length_cons, Nat.succ.injEq] at h
      cases b <;> simp [partition_list, merge_lists, ih l h]

theorem partition_list_cons_true (bs : List Bool) (x : α) (l : List α) :
    partition_list (true :: bs) (x :: l) =
      ((partition_list bs l).1, x :: (partition_list bs l).2) := rfl

theorem partition_list_cons_false (bs : List Bool) (x : α) (l : List α) :
    partition_list (false :: bs) (x :: l) =
      (x :: (partition_list bs l).1, (partition_list bs l).2) := rfl

/-- Lengths of the two partitions add back to the input length. -/
theorem partition_list_lengths (bs : List Bool) (l : List α)
    (h : bs.length = l.length) :
    (partition_list bs l).1.length + (partition_list bs l).2.length = l.length := by
  induction bs generalizing l with
  | nil =>
    cases l with
    | nil => rfl
    | cons x l => simp at h
  | cons b bs ih =>
    cases l with
    | nil => simp at h
    | cons x l =>
      simp only [List.length_cons, Nat.succ.injEq] at h
      have := ih l h
      cases b with
      | false => simp only [partition_list_cons_false, List.length_cons]; omega
      | true => simp only [partition_list_cons_true, List.length_cons]; omega

/-- C10: `partition_list` splits a list by its flags keeping relative order,
and `merge_lists` on the two halves rebuilds the original list. -/
theorem partition_merge_roundtrip (bs : List Bool) (l : List α)
    (h : bs.length = l.length) :
    (partition_list bs l).2 = maskFilter true bs l ∧
    (partition_list bs l).1 = maskFilter false bs l ∧
    merge_lists bs (partition_list bs l).1 (partition_list bs l).2 = some l := by
  refine ⟨?_, ?_, merge_lists_partition bs l h⟩ <;>
    simp [partition_list_eq_maskFilter bs l h]

/-- C10 witness: the round trip at a concrete mask and list. -/
theorem partition_merge_roundtrip_witness :
    (partition_list [true, false, true] [10, 20, 30]).2 =
      maskFilter true [true, false, true] [10, 20, 30] ∧
    (partition_list [true, false, true] [10, 20, 30]).1 =
      maskFilter false [true, false, true] [10, 20, 30] ∧
    merge_lists [true, false, true] (partition_list [true, false, true] [10, 20, 30]).1
      (partition_list [true, false, true] [10, 20, 30]).2 = some [10, 20, 30] :=
  partition_merge_roundtrip [true, false, true] [10, 20, 30] (by decide)

/-! ## `Machine.typecheck_program` -/

/-- Exception propagation: run the continuation on a success, forward the
error of a failure (Python's implicit exception flow). -/
def bindE (x : Except ε α) (f : α → Except ε β) : Except ε β :=
  match x with
  | .error e => .error e
  | .ok a => f a

theorem bindE_ok (a : α) (f : α → Except ε β) : bindE (.ok a) f = f a := rfl

theorem bindE_error (e : ε) (f : α → Except ε β) :
    bindE (.error e : Except ε α) f = .error e := rfl

theorem bindE_eq_ok (x : Except ε α) (f : α → Except ε β) (b : β)
    (h : bindE x f = .ok b) : ∃ a, x = .ok a ∧ f a = .ok b := by
  cases x with
  | error e => rw [bindE_error] at h; exact absurd h (by simp)
  | ok a => exact ⟨a, rfl, h⟩

/-- Sequence a fallible function over a list (the list comprehensions of
the source, which propagate the first raised exception). -/
def mapExcept (f : α → Except ε β) : List α → Except ε (List β)
  | [] => .ok []
  | a :: l => bindE (f a) fun b => bindE (mapExcept f l) fun bs => .ok (b :: bs)

theorem mapExcept_cons_ok (f : α → Except ε β) (a : α) (l : List α) (b : β) (bs : List β)
    (ha : f a = .ok b) (hl : mapExcept f l = .ok bs) :
    mapExcept f (a :: l) = .ok (b :: bs) := by
  simp only [mapExcept]
  rw [ha, bindE_ok, hl, bindE_ok]

theorem mapExcept_cons_elim (f : α → Except ε β) (a : α) (l : List α) (r : List β)
    (h : mapExcept f (a :: l) = .ok r) :
    ∃ b bs, f a = .ok b ∧ mapExcept f l = .ok bs ∧ r = b :: bs := by
  simp only [mapExcept] at h
  obtain ⟨b, hb, h⟩ := bindE_eq_ok _ _ _ h
  obtain ⟨bs, hbs, h⟩ := bindE_eq_ok _ _ _ h
  exact ⟨b, bs, hb, hbs, by simpa using h.symm⟩

/-- `Machine.typecheck_atom`: a Var must be in the in-scope set and yields
its aval; a Lit yields the aval of its value. -/
def typecheck_atom (env : List Var) : Atom → Except TcErr Typecheckor
  | .var v => if v ∈ env then .ok v.aval else .error .typeError
  | .lit t => .ok (get_aval t)

/-- The first loop of `typecheck_program` (and the per-instruction binder
loop): add each binder to the scope, rejecting a re-bound Var. -/
def checkBinders (env : List Var) : List Var → Except TcErr (List Var)
  | [] => .ok env
  | v :: vs => if v ∈ env then .error .typeError else checkBinders (v :: env) vs

/-- The `list_zip(out_binders, out_types)` comparison loop: `list_zip`
asserts the lengths are equal, then each recomputed type must equal the
declared binder type. -/
def checkOutTypes (vs : List Var) (ts : List Typecheckor) : Except TcErr Unit :=
  if vs.length ≠ ts.length then .error .assertError
  else if (vs.zip ts).all (fun p => p.2 = p.1.aval) then .ok () else .error .typeError

/-- The instruction loop of `typecheck_program`: recompute input types in
the current scope, recompute output types via the operator's `typecheck`,
compare with the declared binder types, then bind the output binders. -/
def typecheck_instrs (env : List Var) : List Instruction → Except TcErr (List Var)
  | [] => .ok env
  | i :: rest =>
    bindE (mapExcept (typecheck_atom env) i.inputs) fun in_types =>
    bindE (i.op.typecheck in_types) fun out_types =>
    bindE (checkOutTypes i.out_binders out_types) fun _ =>
    bindE (checkBinders env i.out_binders) fun env' =>
    typecheck_instrs env' rest

/-- `Machine.typecheck_program`. -/
def typecheck_program (p : Program) : Except TcErr ProgramType :=
  bindE (checkBinders [] p.in_binders) fun env =>
  bindE (typecheck_instrs env p.instructions) fun env' =>
  bindE (mapExcept (typecheck_atom env') p.outs) fun out_types =>
  .ok ⟨p.in_binders.map Var.aval, out_types⟩

/-- The Vars referenced by a list of atoms, in order. -/
def atomVars (l : List Atom) : List Var :=
  l.filterMap (fun a => match a with | .var v => some v | .lit _ => none)

/-- The Vars read by an instruction. -/
def varInputs (i : Instruction) : List Var := atomVars i.inputs

/-- All output binders of an instruction list, in order. -/
def outBindersJoin (instrs : List Instruction) : List Var :=
  (instrs.map Instruction.out_binders).flatten

/-- Well-typedness of an instruction list under a set of bound Vars: every
Var input is already bound, the operator's `typecheck` on the recorded
input types returns exactly the declared output binder types, and the
output binders are fresh (no Var is bound twice). -/
def WTInstrs (bound : List Var) : List Instruction → Prop
  | [] => True
  | i :: rest =>
      (∀ v ∈ varInputs i, v ∈ bound) ∧
      i.op.typecheck (i.inputs.map atomAval) = .ok (i.out_binders.map Var.aval) ∧
      i.out_binders.Nodup ∧ (∀ v ∈ i.out_binders, v ∉ bound) ∧
      WTInstrs (bound ++ i.out_binders) rest

/-- A well-formed Program: distinct input binders, well-typed instructions
with single static assignment, and outputs referencing bound Vars. -/
def WF (p : Program) : Prop :=
  p.in_binders.Nodup ∧ WTInstrs p.in_binders p.instructions ∧
  ∀ v ∈ atomVars p.outs, v ∈ p.in_binders ++ outBindersJoin p.instructions

/-- The signature a well-formed program reports: declared input binder
types and the types of its output atoms. -/
def progSig (p : Program) : ProgramType :=
  ⟨p.in_binders.map Var.aval, p.outs.map atomAval⟩

theorem checkBinders_ok (env env' : List Var) (vs : List Var)
    (h : checkBinders env vs = .ok env') :
    vs.Nodup ∧ (∀ v ∈ vs, v ∉ env) ∧ env' = vs.reverse ++ env := by
  induction vs generalizing env with
  | nil =>
    simp only [checkBinders, Except.ok.injEq] at h
    simp [h]
  | cons v vs ih =>
    simp only [checkBinders] at h
    split at h
    · exact absurd h (by simp)
    · rename_i hv
      obtain ⟨h1, h2, h3⟩ := ih (v :: env) h
      refine ⟨List.nodup_cons.2 ⟨fun hm => (h2 v hm) (by simp), h1⟩, ?_, by simp [h3]⟩
      intro w hw
      rcases List.mem_cons.1 hw with hw | hw
      · subst hw; exact hv
      · intro hmem; exact h2 w hw (by simp [hmem])

theorem checkBinders_complete (env : List Var) (vs : List Var)
    (h1 : vs.Nodup) (h2 : ∀ v ∈ vs, v ∉ env) :
    checkBinders env vs = .ok (vs.reverse ++ env) := by
  induction vs generalizing env with
  | nil => rfl
  | cons v vs ih =>
    simp only [checkBinders]
    rw [if_neg (h2 v (by simp))]
    rw [ih (v :: env) (List.nodup_cons.1 h1).2 ?_]
    · simp
    · intro w hw hmem
      rcases List.mem_cons.1 hmem with hmem | hmem
      · exact (List.nodup_cons.1 h1).1 (hmem ▸ hw)
      · exact h2 w (by simp [hw]) hmem

theorem atomVars_cons (a : Atom) (l : List Atom) (v : Var) :
    v ∈ atomVars (a :: l) ↔ (Atom.var v = a ∨ v ∈ atomVars l) := by
  cases a with
  | var w =>
    simp only [atomVars, List.filterMap_cons]
    constructor
    · intro h
      rcases List.mem_cons.1 h with h | h
      · exact Or.inl (by rw [h])
      · exact Or.inr h
    · intro h
      rcases h with h | h
      · simp only [Atom.var.injEq] at h; simp [h]
      · exact List.mem_cons.2 (Or.inr h)
  | lit t =>
    simp only [atomVars, List.filterMap_cons]
    constructor
    · intro h; exact Or.inr h
    · intro h; rcases h with h | h
      · exact absurd h (by simp)
      · exact h

theorem typecheck_atom_ok (env : List Var) (a : Atom) (t : Typecheckor) :
    typecheck_atom env a = .ok t ↔ (∀ v ∈ atomVars [a], v ∈ env) ∧ t = atomAval a := by
  cases a with
  | var v =>
    simp only [typecheck_atom, atomAval]
    constructor
    · intro h
      split at h
      · rename_i hv
        refine ⟨?_, by simpa using h.symm⟩
        intro w hw
        rw [atomVars_cons] at hw
        rcases hw with hw | hw
        · simp only [Atom.var.injEq] at hw; rwa [hw]
        · exact absurd hw (by simp [atomVars])
      · exact absurd h (by simp)
    · rintro ⟨h1, rfl⟩
      rw [if_pos (h1 v (by rw [atomVars_cons]; exact Or.inl rfl))]
  | lit tt =>
    simp only [typecheck_atom, atomAval]
    constructor
    · intro h
      refine ⟨?_, by simpa using h.symm⟩
      intro w hw
      rw [atomVars_cons] at hw
      rcases hw with hw | hw
      · exact absurd hw (by simp)
      · exact absurd hw (by simp [atomVars])
    · rintro ⟨h1, rfl⟩; rfl

theorem mapExcept_typecheck_atom_ok (env : List Var) (l : List Atom) (ts : List Typecheckor) :
    mapExcept (typecheck_atom env) l = .ok ts ↔
      (∀ v ∈ atomVars l, v ∈ env) ∧ ts = l.map atomAval := by
  induction l generalizing ts with
  | nil =>
    simp only [mapExcept, Except.ok.injEq, List.map_nil]
    constructor
    · intro h; exact ⟨by simp [atomVars], h.symm⟩
    · rintro ⟨-, rfl⟩; rfl
  | cons a l ih =>
    constructor
    · intro h
      obtain ⟨b, bs, ha, hl, rfl⟩ := mapExcept_cons_elim _ _ _ _ h
      obtain ⟨h1, rfl⟩ := (typecheck_atom_ok env a b).1 ha
      obtain ⟨h2, rfl⟩ := (ih bs).1 hl
      refine ⟨?_, by simp⟩
      intro v hv
      rw [atomVars_cons] at hv
      rcases hv with hv | hv
      · exact h1 v (by rw [atomVars_cons]; exact Or.inl hv)
      · exact h2 v hv
    · rintro ⟨h1, rfl⟩
      refine mapExcept_cons_ok _ _ _ _ _ ?_ ((ih _).2 ⟨?_, rfl⟩)
      · exact (typecheck_atom_ok env a (atomAval a)).2
          ⟨fun v hv => h1 v (by
            rw [atomVars_cons]
            rcases (atomVars_cons a [] v).1 hv with hv | hv
            · exact Or.inl hv
            · exact absurd hv (by simp [atomVars])), rfl⟩
      · exact fun v hv => h1 v ((atomVars_cons a l v).2 (Or.inr hv))

theorem zip_all_aval (vs : List Var) (ts : List Typecheckor) :
    (vs.length = ts.length ∧
      (vs.zip ts).all (fun p => p.2 = p.1.aval) = true) ↔ ts = vs.map Var.aval := by
  induction vs generalizing ts with
  | nil => cases ts <;> simp
  | cons v vs ih =>
    cases ts with
    | nil => simp
    | cons t ts =>
      simp only [List.length_cons, Nat.succ.injEq, List.zip_cons_cons, List.all_cons,
        Bool.and_eq_true, decide_eq_true_eq, List.map_cons, List.cons.injEq]
      constructor
      · rintro ⟨h1, h2, h3⟩; exact ⟨h2, (ih ts).1 ⟨h1, h3⟩⟩
      · rintro ⟨rfl, rfl⟩
        exact ⟨by simp, rfl, ((ih (vs.map Var.aval)).2 rfl).2⟩

theorem checkOutTypes_ok_iff (vs : List Var) (ts : List Typecheckor) (u : Unit) :
    checkOutTypes vs ts = .ok u ↔ ts = vs.map Var.aval := by
  constructor
  · intro h
    simp only [checkOutTypes] at h
    split at h
    · exact absurd h (by simp)
    · rename_i hlen
      rw [Decidable.not_not] at hlen
      split at h
      · rename_i hall
        exact (zip_all_aval vs ts).1 ⟨hlen, hall⟩
      · exact absurd h (by simp)
  · rintro rfl
    obtain ⟨h1, h2⟩ := (zip_all_aval vs (vs.map Var.aval)).2 rfl
    simp only [checkOutTypes]
    rw [if_neg (by simp), if_pos h2]

/-- `WTInstrs` depends only on the membership of the bound set. -/
theorem WTInstrs_congr (b1 b2 : List Var) (l : List Instruction)
    (h : ∀ v, v ∈ b1 ↔ v ∈ b2) : WTInstrs b1 l ↔ WTInstrs b2 l := by
  induction l generalizing b1 b2 with
  | nil => simp [WTInstrs]
  | cons i rest ih =>
    simp only [WTInstrs]
    constructor
    · rintro ⟨h1, h2, h3, h4, h5⟩
      exact ⟨fun v hv => (h v).1 (h1 v hv), h2, h3, fun v hv hb => h4 v hv ((h v).2 hb),
        (ih _ _ (fun v => by simp [h v])).1 h5⟩
    · rintro ⟨h1, h2, h3, h4, h5⟩
      exact ⟨fun v hv => (h v).2 (h1 v hv), h2, h3, fun v hv hb => h4 v hv ((h v).1 hb),
        (ih _ _ (fun v => by simp [h v])).2 h5⟩

theorem outBindersJoin_cons (i : Instruction) (rest : List Instruction) :
    outBindersJoin (i :: rest) = i.out_binders ++ outBindersJoin rest := by
  simp [outBindersJoin]

/-- The instruction loop accepts exactly the well-typed instruction lists,
and the final scope holds exactly the initial scope plus all binders. -/
theorem typecheck_instrs_ok_iff (instrs : List Instruction) (env env' : List Var) :
    typecheck_instrs env instrs = .ok env' ↔
      WTInstrs env instrs ∧ env' = (outBindersJoin instrs).reverse ++ env := by
  induction instrs generalizing env env' with
  | nil =>
    simp only [typecheck_instrs, WTInstrs, outBindersJoin, List.map_nil, List.flatten_nil,
      List.reverse_nil, List.nil_append, Except.ok.injEq, true_and]
    exact ⟨fun h => h.symm, fun h => h.symm⟩
  | cons i rest ih =>
    constructor
    · intro h
      simp only [typecheck_instrs] at h
      obtain ⟨in_types, h1, h⟩ := bindE_eq_ok _ _ _ h
      obtain ⟨hscope, rfl⟩ := (mapExcept_typecheck_atom_ok env i.inputs in_types).1 h1
      obtain ⟨out_types, h2, h⟩ := bindE_eq_ok _ _ _ h
      obtain ⟨u, h3, h⟩ := bindE_eq_ok _ _ _ h
      have htypes := (checkOutTypes_ok_iff i.out_binders out_types u).1 h3
      obtain ⟨env1, h4, h⟩ := bindE_eq_ok _ _ _ h
      obtain ⟨hnd, hfresh, rfl⟩ := checkBinders_ok env _ i.out_binders h4
      obtain ⟨hwt, rfl⟩ := (ih _ env').1 h
      refine ⟨⟨hscope, htypes ▸ h2, hnd, hfresh, ?_⟩, ?_⟩
      · exact (WTInstrs_congr _ _ rest (fun v => by simp; tauto)).1 hwt
      · rw [outBindersJoin_cons, List.reverse_append]
        simp [List.append_assoc]
    · rintro ⟨⟨hscope, htc, hnd, hfresh, hwt⟩, rfl⟩
      simp only [typecheck_instrs]
      rw [(mapExcept_typecheck_atom_ok env i.inputs (i.inputs.map atomAval)).2 ⟨hscope, rfl⟩,
        bindE_ok, htc, bindE_ok,
        (checkOutTypes_ok_iff i.out_binders (i.out_binders.map Var.aval) ()).2 rfl,
        bindE_ok, checkBinders_complete env i.out_binders hnd hfresh, bindE_ok,
        (ih _ _).2 ⟨(WTInstrs_congr _ _ rest (fun v => by simp; tauto)).1 hwt, rfl⟩]
      rw [outBindersJoin_cons, List.reverse_append]
      simp [List.append_assoc]

/-- Acceptance characterization of `typecheck_program`: it returns the
program's signature exactly on well-formed programs. -/
theorem typecheck_program_ok_iff (p : Program) (t : ProgramType) :
    typecheck_program p = .ok t ↔ WF p ∧ t = progSig p := by
  constructor
  · intro h
    simp only [typecheck_program] at h
    obtain ⟨env, h1, h⟩ := bindE_eq_ok _ _ _ h
    obtain ⟨hnd, -, rfl⟩ := checkBinders_ok [] _ p.in_binders h1
    obtain ⟨env', h2, h⟩ := bindE_eq_ok _ _ _ h
    obtain ⟨hwt, rfl⟩ := (typecheck_instrs_ok_iff p.instructions _ env').1 h2
    obtain ⟨out_types, h3, h⟩ := bindE_eq_ok _ _ _ h
    obtain ⟨houts, rfl⟩ := (mapExcept_typecheck_atom_ok _ p.outs out_types).1 h3
    refine ⟨⟨hnd, ?_, ?_⟩, ?_⟩
    · exact (WTInstrs_congr _ _ p.instructions (fun v => by simp)).1 hwt
    · intro v hv
      have := houts v hv
      simp only [List.append_nil, List.mem_append, List.mem_reverse] at this
      simp only [List.mem_append]
      tauto
    · simp only [Except.ok.injEq] at h
      rw [← h]
      rfl
  · rintro ⟨⟨hnd, hwt, houts⟩, rfl⟩
    simp only [typecheck_program]
    rw [checkBinders_complete [] p.in_binders hnd (by simp), bindE_ok,
      (typecheck_instrs_ok_iff p.instructions _ _).2
        ⟨(WTInstrs_congr _ _ p.instructions (fun v => by simp)).2 hwt, rfl⟩, bindE_ok,
      (mapExcept_typecheck_atom_ok _ p.outs (p.outs.map atomAval)).2 ⟨?_, rfl⟩, bindE_ok]
    · rfl
    · intro v hv
      have := houts v hv
      simp only [List.mem_append] at this
      simp only [List.append_nil, List.mem_append, List.mem_reverse]
      tauto

/-- C2: `typecheck_program` accepts a Program exactly when no Var is bound
twice (`WF`'s Nodup and freshness conjuncts), every instruction input and
program output references an earlier-bound Var (`WF`'s scope conjuncts),
and each instruction's declared output binder types equal the types the
operator's `typecheck` recomputes from the recorded input types; on
acceptance it returns the Program's (input types, output types) signature,
and on any violation it raises an error (every explicit rejection in the
source is `raise TypeError`; the model also reports the `list_zip` length
assert as an error value). -/
theorem typecheck_program_spec (p : Program) :
    (typecheck_program p = .ok (progSig p) ↔ WF p) ∧
    (∀ t, typecheck_program p = .ok t → t = progSig p) ∧
    (¬ WF p → ∃ e, typecheck_program p = .error e) := by
  refine ⟨?_, ?_, ?_⟩
  · constructor
    · intro h; exact ((typecheck_program_ok_iff p (progSig p)).1 h).1
    · intro h; exact (typecheck_program_ok_iff p (progSig p)).2 ⟨h, rfl⟩
  · intro t h; exact ((typecheck_program_ok_iff p t).1 h).2
  · intro h
    cases he : typecheck_program p with
    | error e => exact ⟨e, rfl⟩
    | ok t => exact absurd ((typecheck_program_ok_iff p t).1 he).1 h

/-! ## The default binary `typecheck` rule (`Operator.binary`, core.py 485-509) -/

/-- The shared `typecheck` of binary elementwise operators, translated
line by line from the source: equal descriptors pass through; a lower-rank
second operand is padded with leading 1s; when the first operand has the
lower rank the source calls `x.reshape`, a method `Typecheckor` does not
have, so that path raises АttributeError — modelled as `.attributeError`;
otherwise the result shape is the elementwise `max` of the two shapes and
a `TypeError` is raised only when the two adjusted descriptors still
differ (which after taking `max` can only happen on a dtype mismatch). -/
def binary_typecheck (x y : Typecheckor) : Except TcErr (List Typecheckor) :=
  if x = y then .ok [x]
  else if x.shape.length < y.shape.length then .error .attributeError
  else
    let y' : Typecheckor :=
      if y.shape.length < x.shape.length then
        ⟨List.replicate (x.shape.length - y.shape.length) 1 ++ y.shape, y.dtype⟩
      else y
    if x = y' then .ok [x]
    else
      let shape_ret := x.shape.zipWith max y'.shape
      let vx : Typecheckor := if x.shape ≠ shape_ret then ⟨shape_ret, x.dtype⟩ else x
      let vy : Typecheckor := if y'.shape ≠ shape_ret then ⟨shape_ret, y'.dtype⟩ else y'
      if vx ≠ vy then .error .typeError else .ok [vx]

/-- C3: on the NumPy-incompatible equal-rank shapes (3,) and (5,) (same
dtype 0) the binary `typecheck` does not fail: the elementwise `max`
turns both shapes into (5,), the final equality check passes, and an
output AbstractValue of shape (5,) is returned instead of a TypeError. -/
theorem binary_typecheck_incompatible_shapes_ok :
    binary_typecheck ⟨[3], 0⟩ ⟨[5], 0⟩ = .ok [⟨[5], 0⟩] ∧
    ∀ e, binary_typecheck ⟨[3], 0⟩ ⟨[5], 0⟩ ≠ .error e := by
  refine ⟨rfl, ?_⟩
  intro e h
  exact Except.noConfusion h

/-! ## `Machine.run_program` -/

/-- Failure modes of `Machine.run_program`: `assertFail` is the
single-assignment assert in its `write` helper, `keyError` a read of a Var
missing from the environment, `evalFail` an exception from the operator's
eval kernel. -/
inductive RunErr where
  | assertFail
  | keyError
  | evalFail
deriving DecidableEq, Repr

/-- The value environment: Python's dict from Var (object identity) to
concrete value. -/
abbrev VEnv := Var → Option Tensor

def emptyVEnv : VEnv := fun _ => none

/-- `read`: a Var looks up the environment (KeyError when absent), a Lit
yields its value. -/
def readAtom (env : VEnv) : Atom → Except RunErr Tensor
  | .var v =>
    match env v with
    | some t => .ok t
    | none => .error .keyError
  | .lit t => .ok t

/-- `write`: `assert v not in environment` then bind. -/
def writeVar (env : VEnv) (v : Var) (t : Tensor) : Except RunErr VEnv :=
  match env v with
  | some _ => .error .assertFail
  | none => .ok (fun w => if w = v then some t else env w)

/-- `list_map(write, vs, ts)`: sequential writes, truncating at the shorter
list exactly as Python's `map` does. -/
def writeMany (env : VEnv) : List Var → List Tensor → Except RunErr VEnv
  | v :: vs, t :: ts => bindE (writeVar env v t) fun env' => writeMany env' vs ts
  | _, _ => .ok env

/-- Run an operator's eval kernel, turning a raised exception into
`evalFail`. -/
def evalE (op : Operator) (vals : List Tensor) : Except RunErr (List Tensor) :=
  match op.eval vals with
  | none => .error .evalFail
  | some outs => .ok outs

theorem evalE_some (op : Operator) (vals outs : List Tensor)
    (h : op.eval vals = some outs) : evalE op vals = .ok outs := by
  simp only [evalE, h]

theorem evalE_none (op : Operator) (vals : List Tensor)
    (h : op.eval vals = none) : evalE op vals = .error .evalFail := by
  simp only [evalE, h]

theorem evalE_ok_elim (op : Operator) (vals outs : List Tensor)
    (h : evalE op vals = .ok outs) : op.eval vals = some outs := by
  simp only [evalE] at h
  cases he : op.eval vals with
  | none => rw [he] at h; exact absurd h (by simp)
  | some os => rw [he] at h; simpa using h

/-- The instruction loop of `run_program`: read inputs, run the operator's
eval kernel, write outputs. -/
def runInstrs (env : VEnv) : List Instruction → Except RunErr VEnv
  | [] => .ok env
  | i :: rest =>
    bindE (mapExcept (readAtom env) i.inputs) fun vals =>
    bindE (evalE i.op vals) fun outs =>
    bindE (writeMany env i.out_binders outs) fun env' => runInstrs env' rest

/-- `Machine.run_program`: bind the arguments to the input binders, run
the instructions in append order, read the outputs. -/
def run_program (p : Program) (args : List Tensor) : Except RunErr (List Tensor) :=
  bindE (writeMany emptyVEnv p.in_binders args) fun env =>
  bindE (runInstrs env p.instructions) fun env' =>
  mapExcept (readAtom env') p.outs

theorem mapExcept_ok_iff_forall2 (f : α → Except ε β) (l : List α) (r : List β) :
    mapExcept f l = .ok r ↔ List.Forall₂ (fun a b => f a = .ok b) l r := by
  induction l generalizing r with
  | nil =>
    simp only [mapExcept]
    constructor
    · intro h
      cases r with
      | nil => exact List.Forall₂.nil
      | cons b bs => exact absurd h (by simp)
    · intro h; cases h; rfl
  | cons a l ih =>
    constructor
    · intro h
      obtain ⟨b, bs, ha, hl, rfl⟩ := mapExcept_cons_elim f a l r h
      exact List.Forall₂.cons ha ((ih bs).1 hl)
    · intro h
      cases h with
      | cons ha hl => exact mapExcept_cons_ok f a l _ _ ha ((ih _).2 hl)

theorem writeVar_ok_elim (env env' : VEnv) (v : Var) (t : Tensor)
    (h : writeVar env v t = .ok env') :
    env v = none ∧ env' = fun w => if w = v then some t else env w := by
  simp only [writeVar] at h
  cases hv : env v with
  | some u => rw [hv] at h; exact absurd h (by simp)
  | none => rw [hv] at h; exact ⟨rfl, by simpa using h.symm⟩

theorem writeVar_ok_of (env : VEnv) (v : Var) (t : Tensor) (h : env v = none) :
    writeVar env v t = .ok (fun w => if w = v then some t else env w) := by
  simp only [writeVar, h]

/-- A successful sequence of writes: the binders were distinct and fresh,
untouched Vars keep their value, and each binder maps to its argument. -/
theorem writeMany_ok_elim (vs : List Var) (ts : List Tensor) (env env' : VEnv)
    (hlen : vs.length ≤ ts.length)
    (h : writeMany env vs ts = .ok env') :
    vs.Nodup ∧ (∀ v ∈ vs, env v = none) ∧
    (∀ v, v ∉ vs → env' v = env v) ∧
    (∀ k, (hk : k < vs.length) → (hk2 : k < ts.length) → env' vs[k] = some ts[k]) := by
  induction vs generalizing ts env with
  | nil =>
    simp only [writeMany, Except.ok.injEq] at h
    subst h
    exact ⟨List.nodup_nil, by simp, fun v _ => rfl, fun k hk _ => absurd hk (by simp)⟩
  | cons v vs ih =>
    cases ts with
    | nil => simp at hlen
    | cons t ts =>
      simp only [writeMany] at h
      obtain ⟨env1, hw, h⟩ := bindE_eq_ok _ _ _ h
      obtain ⟨hv, rfl⟩ := writeVar_ok_elim env env1 v t hw
      simp only [List.length_cons, Nat.succ_le_succ_iff] at hlen
      obtain ⟨hnd, hfresh, huntouched, hidx⟩ := ih ts _ hlen h
      have hvnotin : v ∉ vs := by
        intro hmem
        have := hfresh v hmem
        simp at this
      have hfresh' : ∀ w ∈ vs, env w = none := by
        intro w hw'
        have := hfresh w hw'
        by_cases hwv : w = v
        · subst hwv; exact absurd this (by simp)
        · simpa [hwv] using this
      refine ⟨List.nodup_cons.2 ⟨hvnotin, hnd⟩, ?_, ?_, ?_⟩
      · intro w hw'
        rcases List.mem_cons.1 hw' with rfl | hw'
        · exact hv
        · exact hfresh' w hw'
      · intro w hw'
        have h1 : w ∉ vs := fun hm => hw' (List.mem_cons.2 (Or.inr hm))
        have h2 : w ≠ v := fun he => hw' (List.mem_cons.2 (Or.inl he))
        rw [huntouched w h1]
        simp [h2]
      · intro k hk hk2
        cases k with
        | zero =>
          simp only [List.getElem_cons_zero]
          rw [huntouched v hvnotin]
          simp
        | succ k =>
          simp only [List.getElem_cons_succ]
          exact hidx k (by simpa using hk) (by simpa using hk2)

/-- Distinct fresh binders can always be written (truncating at the
argument list). -/
theorem writeMany_ok_of (vs : List Var) (ts : List Tensor) (env : VEnv)
    (hnd : vs.Nodup) (hfresh : ∀ v ∈ vs, env v = none) :
    ∃ env', writeMany env vs ts = .ok env' := by
  induction vs generalizing ts env with
  | nil => exact ⟨env, rfl⟩
  | cons v vs ih =>
    cases ts with
    | nil => exact ⟨env, rfl⟩
    | cons t ts =>
      simp only [writeMany]
      rw [writeVar_ok_of env v t (hfresh v (by simp)), bindE_ok]
      refine ih ts _ (List.nodup_cons.1 hnd).2 ?_
      intro w hw
      have : w ≠ v := fun he => (List.nodup_cons.1 hnd).1 (he ▸ hw)
      simp [this, hfresh w (List.mem_cons.2 (Or.inr hw))]

theorem readAtom_ok_of (env : VEnv) (a : Atom)
    (h : ∀ v ∈ atomVars [a], (env v).isSome) : ∃ t, readAtom env a = .ok t := by
  cases a with
  | var v =>
    have := h v ((atomVars_cons (Atom.var v) [] v).2 (Or.inl rfl))
    cases hv : env v with
    | none => rw [hv] at this; exact absurd this (by simp)
    | some t => exact ⟨t, by simp [readAtom, hv]⟩
  | lit t => exact ⟨t, rfl⟩

theorem mapExcept_readAtom_ok (env : VEnv) (l : List Atom)
    (h : ∀ v ∈ atomVars l, (env v).isSome) :
    ∃ vals, mapExcept (readAtom env) l = .ok vals ∧ vals.length = l.length := by
  induction l with
  | nil => exact ⟨[], rfl, rfl⟩
  | cons a l ih =>
    obtain ⟨t, ht⟩ := readAtom_ok_of env a (fun v hv => by
      rcases (atomVars_cons a [] v).1 hv with hv' | hv'
      · exact h v ((atomVars_cons a l v).2 (Or.inl hv'))
      · exact absurd hv' (by simp [atomVars]))
    obtain ⟨vals, hvals, hlen⟩ := ih (fun v hv => h v ((atomVars_cons a l v).2 (Or.inr hv)))
    exact ⟨t :: vals, mapExcept_cons_ok _ _ _ _ _ ht hvals, by simp [hlen]⟩

/-- Running well-typed instructions whose environment covers exactly the
bound Vars either aborts inside an operator kernel or completes with an
environment covering exactly the bound Vars plus every output binder; in
particular the write assert and the environment reads never fail. -/
theorem runInstrs_safety (instrs : List Instruction) (env : VEnv) (bound : List Var)
    (hdom : ∀ v, (env v).isSome ↔ v ∈ bound)
    (hwt : WTInstrs bound instrs)
    (harity : ∀ i ∈ instrs, ∀ vs os, i.op.eval vs = some os →
      os.length = i.out_binders.length) :
    runInstrs env instrs = .error .evalFail ∨
      ∃ env', runInstrs env instrs = .ok env' ∧
        ∀ v, (env' v).isSome ↔ v ∈ bound ++ outBindersJoin instrs := by
  induction instrs generalizing env bound with
  | nil =>
    right
    exact ⟨env, rfl, fun v => by simpa [outBindersJoin] using hdom v⟩
  | cons i rest ih =>
    obtain ⟨hscope, htc, hnd, hfresh, hwt'⟩ := hwt
    obtain ⟨vals, hvals, hvlen⟩ :=
      mapExcept_readAtom_ok env i.inputs (fun v hv => (hdom v).2 (hscope v hv))
    cases heval : i.op.eval vals with
    | none =>
      left
      simp only [runInstrs]
      rw [hvals, bindE_ok, evalE_none i.op vals heval, bindE_error]
    | some os =>
      have hoslen : os.length = i.out_binders.length := harity i (by simp) vals os heval
      have hfresh' : ∀ v ∈ i.out_binders, env v = none := by
        intro v hv
        have := hfresh v hv
        cases he : env v with
        | none => rfl
        | some t => exact absurd ((hdom v).1 (by simp [he])) this
      obtain ⟨env1, henv1⟩ := writeMany_ok_of i.out_binders os env hnd hfresh'
      obtain ⟨-, -, huntouched, hidx⟩ :=
        writeMany_ok_elim i.out_binders os env env1 (by omega) henv1
      have hdom1 : ∀ v, (env1 v).isSome ↔ v ∈ bound ++ i.out_binders := by
        intro v
        by_cases hv : v ∈ i.out_binders
        · obtain ⟨k, hk, rfl⟩ := List.getElem_of_mem hv
          rw [hidx k hk (by omega)]
          simp [hv]
        · rw [huntouched v hv]
          simp only [List.mem_append]
          constructor
          · intro h; exact Or.inl ((hdom _).1 h)
          · intro h
            rcases h with h | h
            · exact (hdom _).2 h
            · exact absurd h hv
      have := ih env1 (bound ++ i.out_binders) hdom1 hwt'
        (fun j hj => harity j (by simp [hj]))
      have hstep : runInstrs env (i :: rest) = runInstrs env1 rest := by
        simp only [runInstrs]
        rw [hvals, bindE_ok, evalE_some i.op vals os heval, bindE_ok, henv1, bindE_ok]
      rcases this with h | ⟨env', hok, hdom'⟩
      · left; rw [hstep]; exact h
      · right
        refine ⟨env', by rw [hstep]; exact hok, ?_⟩
        intro v
        rw [hdom' v]
        simp [outBindersJoin_cons, List.mem_append, or_assoc]

/-- C9: on a Program accepted by `typecheck_program` and an argument list
of matching length, `run_program` executes every instruction with each Var
written exactly once before any read: the run either completes (returning
one value per program output) or aborts inside an operator's eval kernel,
and it never hits the single-assignment write assert nor a missing-Var
read.  The hypothesis `harity` is the operator contract of spec §4.1: an
eval kernel returns as many outputs as the instruction declares. -/
theorem run_program_safety (p : Program) (ty : ProgramType) (args : List Tensor)
    (htc : typecheck_program p = .ok ty)
    (hlen : args.length = p.in_binders.length)
    (harity : ∀ i ∈ p.instructions, ∀ vs os, i.op.eval vs = some os →
      os.length = i.out_binders.length) :
    (run_program p args = .error .evalFail ∨
      ∃ res, run_program p args = .ok res ∧ res.length = p.outs.length) ∧
    run_program p args ≠ .error .assertFail ∧
    run_program p args ≠ .error .keyError := by
  obtain ⟨⟨hnd, hwt, houts⟩, -⟩ := (typecheck_program_ok_iff p ty).1 htc
  obtain ⟨env0, henv0⟩ := writeMany_ok_of p.in_binders args emptyVEnv hnd (fun v _ => rfl)
  obtain ⟨-, -, huntouched, hidx⟩ :=
    writeMany_ok_elim p.in_binders args emptyVEnv env0 (by omega) henv0
  have hdom0 : ∀ v, (env0 v).isSome ↔ v ∈ p.in_binders := by
    intro v
    by_cases hv : v ∈ p.in_binders
    · obtain ⟨k, hk, rfl⟩ := List.getElem_of_mem hv
      rw [hidx k hk (by omega)]
      simp [hv]
    · rw [huntouched v hv]
      simp [emptyVEnv, hv]
  have hmain : (run_program p args = .error .evalFail ∨
      ∃ res, run_program p args = .ok res ∧ res.length = p.outs.length) := by
    rcases runInstrs_safety p.instructions env0 p.in_binders hdom0 hwt harity with
      h | ⟨env', hok, hdom'⟩
    · left
      simp only [run_program]
      rw [henv0, bindE_ok, h]
      rfl
    · right
      obtain ⟨res, hres, hreslen⟩ :=
        mapExcept_readAtom_ok env' p.outs (fun v hv => (hdom' v).2 (houts v hv))
      refine ⟨res, ?_, hreslen⟩
      simp only [run_program]
      rw [henv0, bindE_ok, hok, bindE_ok]
      exact hres
  refine ⟨hmain, ?_, ?_⟩
  · rcases hmain with h | ⟨res, h, -⟩ <;> simp [h]
  · rcases hmain with h | ⟨res, h, -⟩ <;> simp [h]

/-! ## Sample operators (concrete instances for witnesses) -/

/-- Elementwise tensor multiplication. -/
def tmul (x y : Tensor) : Tensor := ⟨x.shape, x.dtype, x.data.zipWith (· * ·) y.data⟩

/-- The eval kernel shape shared by binary elementwise operators: exactly
two operands, one output. -/
def binaryEval (f : Tensor → Tensor → Tensor) : List Tensor → Option (List Tensor)
  | [x, y] => some [f x y]
  | _ => none

theorem binaryEval_arity (f : Tensor → Tensor → Tensor) (vs os : List Tensor)
    (h : binaryEval f vs = some os) : os.length = 1 := by
  cases vs with
  | nil => exact Option.noConfusion h
  | cons x vs =>
    cases vs with
    | nil => exact Option.noConfusion h
    | cons y vs =>
      cases vs with
      | nil =>
        injection h with h
        rw [← h]
        rfl
      | cons z vs => exact Option.noConfusion h

/-- The binary `typecheck` bundle entry: two input avals fed to the shared
binary rule. -/
def binaryTc : List Typecheckor → Except TcErr (List Typecheckor)
  | [x, y] => binary_typecheck x y
  | _ => .error .typeError

/-- The transpose rule of `Add`: the output cotangent flows to both
inputs. -/
def addT : List Tensor → List TArg → Option (List (Option Tensor))
  | [z], _ => some [some z, some z]
  | _, _ => none

def addOp : Operator := ⟨"add", binaryTc, binaryEval tadd, addT⟩

/-- A concrete 1-D float32 abstract value used by witnesses. -/
def tA : Typecheckor := ⟨[2], 0⟩

def v0 : Var := ⟨0, tA⟩

def v1 : Var := ⟨1, tA⟩

/-- A tiny concrete program: one input, one add instruction, one output. -/
def P9 : Program := ⟨[v0], [⟨addOp, [.var v0, .var v0], [v1]⟩], [.var v1], 0, "p9"⟩

/-- C9 witness: the safety theorem applied to the concrete program `P9`. -/
theorem run_program_safety_witness :
    (run_program P9 [⟨[2], 0, [1, 2]⟩] = .error .evalFail ∨
      ∃ res, run_program P9 [⟨[2], 0, [1, 2]⟩] = .ok res ∧ res.length = P9.outs.length) ∧
    run_program P9 [⟨[2], 0, [1, 2]⟩] ≠ .error .assertFail ∧
    run_program P9 [⟨[2], 0, [1, 2]⟩] ≠ .error .keyError :=
  run_program_safety P9 ⟨[tA], [tA]⟩ [⟨[2], 0, [1, 2]⟩] rfl rfl (by
    intro i hi vs os h
    have hi' : i = ⟨addOp, [.var v0, .var v0], [v1]⟩ := by
      simpa [P9] using hi
    subst hi'
    exact binaryEval_arity tadd vs os h)

/-! ## The `Sub` operator's jvp rule (src/myad/ops.py vs src/slope/ops.py) -/

/-- `Sub.eval` of src/myad/ops.py: `[x - y]`. -/
def myadSub_eval (x y : Tensor) : List Tensor := [tsub x y]

/-- `Sub.jvp` of src/myad/ops.py: the source returns `[x + y], [x_dot + y_dot]`
(an unmodified copy of `Add.jvp`). -/
def myadSub_jvp (primals tangents : Tensor × Tensor) : List Tensor × List Tensor :=
  ([tadd primals.1 primals.2], [tadd tangents.1 tangents.2])

/-- `Sub.eval` of src/slope/ops.py: `[x - y]`. -/
def Sub_eval (x y : Tensor) : List Tensor := [tsub x y]

/-- `Sub.jvp` of src/slope/ops.py: `[x - y], [x_dot - y_dot]`. -/
def Sub_jvp (primals tangents : Tensor × Tensor) : List Tensor × List Tensor :=
  ([tsub primals.1 primals.2], [tsub tangents.1 tangents.2])

/-- C4: at primals (5, 3) and tangents (0, 1) the `Sub.jvp` of
src/myad/ops.py returns primal 8 = x + y and tangent 1 = x_dot + y_dot,
contradicting its own `Sub.eval` (which computes x - y = 2) and the claim's
x - y / x_dot - y_dot (which the `Sub.jvp` of src/slope/ops.py computes:
primal 2, tangent -1). -/
theorem myadSub_jvp_divergence :
    myadSub_jvp (⟨[], 0, [5]⟩, ⟨[], 0, [3]⟩) (⟨[], 0, [0]⟩, ⟨[], 0, [1]⟩)
      = ([⟨[], 0, [8]⟩], [⟨[], 0, [1]⟩]) ∧
    myadSub_eval ⟨[], 0, [5]⟩ ⟨[], 0, [3]⟩ = [⟨[], 0, [2]⟩] ∧
    Sub_jvp (⟨[], 0, [5]⟩, ⟨[], 0, [3]⟩) (⟨[], 0, [0]⟩, ⟨[], 0, [1]⟩)
      = ([⟨[], 0, [2]⟩], [⟨[], 0, [-1]⟩]) ∧
    ([(⟨[], 0, [8]⟩ : Tensor)] ≠ [(⟨[], 0, [2]⟩ : Tensor)]) := by
  refine ⟨by decide, by decide, by decide, by decide⟩

/-! ## `Machine.find_top_trace` -/

/-- A `MainTrace` record: its stack level plus a tag modelling the identity
of the Python object (its trace kind and global data). -/
structure MainTrace where
  level : Nat
  tag : Nat
deriving DecidableEq, Repr

/-- An operand of `bind` as `find_top_trace` sees it: a tracer (carrying
the MainTrace of `x._trace.main`), a tuple/list of operands, or any other
non-tracer value. -/
inductive Operand where
  | tracer (mt : MainTrace)
  | value
  | seq (xs : List Operand)

mutual

/-- One step of `get_arr_from_seq`: recurse into tuples/lists, collect
tracers, skip other values. -/
def getArrsOp : Operand → List MainTrace
  | .tracer mt => [mt]
  | .value => []
  | .seq xs => getArrs xs

/-- `get_arr_from_seq`: the MainTraces of all tracer operands, in
left-to-right order, recursing through nested tuples and lists. -/
def getArrs : List Operand → List MainTrace
  | [] => []
  | x :: xs => getArrsOp x ++ getArrs xs

end

/-- Python's `max(..., key=attrgetter("level"))` over a nonempty list:
keep the current candidate unless a strictly higher level appears. -/
def maxByLevel (a : MainTrace) (l : List MainTrace) : MainTrace :=
  l.foldl (fun best x => if best.level < x.level then x else best) a

/-- `Machine.find_top_trace`: the highest-level MainTrace among tracer
operands (default: the bottom of the trace stack), overridden by the
dynamic trace when its level is strictly higher; an empty trace stack
makes the indexing `trace_stack[0]` fail. -/
def find_top_trace (stack : List MainTrace) (dyn : Option MainTrace)
    (xs : List Operand) : Option MainTrace :=
  match stack with
  | [] => none
  | bottom :: _ =>
    let top :=
      match getArrs xs with
      | [] => bottom
      | a :: rest => maxByLevel a rest
    some (match dyn with
      | some d => if top.level < d.level then d else top
      | none => top)

theorem maxByLevel_mem (a : MainTrace) (l : List MainTrace) :
    maxByLevel a l ∈ a :: l := by
  induction l generalizing a with
  | nil => simp [maxByLevel]
  | cons x l ih =>
    simp only [maxByLevel, List.foldl_cons]
    by_cases h : a.level < x.level
    · rw [if_pos h]
      have := ih x
      simp only [maxByLevel] at this
      rcases List.mem_cons.1 this with h' | h'
      · simp [h']
      · simp [List.mem_cons, h']
    · rw [if_neg h]
      have := ih a
      simp only [maxByLevel] at this
      rcases List.mem_cons.1 this with h' | h'
      · simp [h']
      · simp [List.mem_cons, h']

theorem maxByLevel_ge (a : MainTrace) (l : List MainTrace) :
    ∀ x ∈ a :: l, x.level ≤ (maxByLevel a l).level := by
  induction l generalizing a with
  | nil =>
    intro x hx
    rcases List.mem_cons.1 hx with rfl | hx
    · exact le_refl _
    · exact absurd hx (by simp)
  | cons y l ih =>
    intro x hx
    have step : maxByLevel a (y :: l) = maxByLevel (if a.level < y.level then y else a) l := by
      simp [maxByLevel]
    rw [step]
    have hab : a.level ≤ (if a.level < y.level then y else a).level := by
      split <;> omega
    have hyb : y.level ≤ (if a.level < y.level then y else a).level := by
      split <;> omega
    have hself := ih (if a.level < y.level then y else a)
      (if a.level < y.level then y else a) (by simp)
    rcases List.mem_cons.1 hx with rfl | hx'
    · exact le_trans hab hself
    · rcases List.mem_cons.1 hx' with rfl | hx''
      · exact le_trans hyb hself
      · exact ih _ x (List.mem_cons.2 (Or.inr hx''))

/-- C6: `find_top_trace` returns the bottom-of-stack eager trace when no
operand is a tracer (and the dynamic trace, when set, does not dominate);
with tracer operands (including those nested in tuple/list operands,
collected by `getArrs`) it returns a collected MainTrace of maximal level;
and whenever the dynamic MainTrace is set with a strictly higher level than
the candidate, it returns the dynamic trace instead. -/
theorem find_top_trace_spec (stack : List MainTrace) (dyn : Option MainTrace)
    (xs : List Operand) (bottom : MainTrace) (hb : stack.head? = some bottom) :
    ((getArrs xs = [] ∧ ∀ d, dyn = some d → d.level ≤ bottom.level) →
        find_top_trace stack dyn xs = some bottom) ∧
    (getArrs xs = [] → ∀ d, dyn = some d → bottom.level < d.level →
        find_top_trace stack dyn xs = some d) ∧
    (∀ a rest, getArrs xs = a :: rest →
      ∃ c, c ∈ getArrs xs ∧ (∀ t ∈ getArrs xs, t.level ≤ c.level) ∧
        ((∀ d, dyn = some d → d.level ≤ c.level) →
            find_top_trace stack dyn xs = some c) ∧
        (∀ d, dyn = some d → c.level < d.level →
            find_top_trace stack dyn xs = some d)) := by
  cases stack with
  | nil => exact absurd hb (by simp)
  | cons b tail =>
    have hb' : b = bottom := by simpa using hb
    subst hb'
    refine ⟨?_, ?_, ?_⟩
    · rintro ⟨hempty, hdyn⟩
      simp only [find_top_trace, hempty]
      cases dyn with
      | none => rfl
      | some d =>
        have := hdyn d rfl
        simp only [Option.some.injEq]
        rw [if_neg (by omega)]
    · intro hempty d hd hlt
      subst hd
      simp only [find_top_trace, hempty, Option.some.injEq]
      rw [if_pos hlt]
    · intro a rest hget
      refine ⟨maxByLevel a rest, ?_, ?_, ?_, ?_⟩
      · rw [hget]; exact maxByLevel_mem a rest
      · rw [hget]; exact maxByLevel_ge a rest
      · intro hdyn
        simp only [find_top_trace, hget]
        cases dyn with
        | none => rfl
        | some d =>
          have := hdyn d rfl
          simp only [Option.some.injEq]
          rw [if_neg (by omega)]
      · intro d hd hlt
        subst hd
        simp only [find_top_trace, hget, Option.some.injEq]
        rw [if_pos hlt]

/-- C6 witness: with no tracer operands and no dynamic trace, the bottom
eager trace is returned. -/
theorem find_top_trace_spec_witness :
    find_top_trace [⟨0, 0⟩] none [Operand.value] = some ⟨0, 0⟩ :=
  (find_top_trace_spec [⟨0, 0⟩] none [Operand.value] ⟨0, 0⟩ rfl).1
    ⟨rfl, fun _ hd => Option.noConfusion hd⟩

/-! ## `Machine.run_program_transposed` -/

/-- The cotangent environment. -/
abbrev CEnv := Var → Option Tensor

/-- `read_primal`: the stored value of a Var, a `PrimalProxy` of its aval
when no concrete primal was ever written, the value of a Lit. -/
def read_primal (env : VEnv) : Atom → TArg
  | .var v =>
    match env v with
    | some t => .val t
    | none => .proxy v.aval
  | .lit t => .val t

/-- `write_primal`: only concrete values are stored, proxies are skipped. -/
def write_primal (env : VEnv) (v : Var) (a : TArg) : VEnv :=
  match a with
  | .proxy _ => env
  | .val t => fun w => if w = v then some t else env w

/-- `list_map(write_primal, in_binders, args)`, truncating like Python's
`map`. -/
def write_primals (env : VEnv) : List Var → List TArg → VEnv
  | v :: vs, a :: l => write_primals (write_primal env v a) vs l
  | _, _ => env

/-- `read_cotangent`: pop the accumulated cotangent of a Var, yielding a
zeros tensor of its aval when none was set. -/
def read_cotangent (ct : CEnv) (v : Var) : Tensor × CEnv :=
  match ct v with
  | some t => (t, fun w => if w = v then none else ct w)
  | none => (zeros v.aval, ct)

/-- Sequential pops of the output cotangents of an instruction. -/
def read_cotangents (ct : CEnv) : List Var → List Tensor × CEnv
  | [] => ([], ct)
  | v :: vs =>
    let r := read_cotangent ct v
    let rest := read_cotangents r.2 vs
    (r.1 :: rest.1, rest.2)

/-- `write_cotangent`: a Lit target or a `None` cotangent is dropped; a
contribution to a Var already holding a cotangent is added onto it. -/
def write_cotangent (ct : CEnv) (x : Atom) (val : Option Tensor) : CEnv :=
  match x, val with
  | .var v, some t =>
    fun w => if w = v then
      some (match ct v with | some c => tadd c t | none => t)
    else ct w
  | _, _ => ct

/-- `list_map(write_cotangent, inputs, cts_out)`, truncating like Python's
`map`. -/
def write_cotangents (ct : CEnv) : List Atom → List (Option Tensor) → CEnv
  | x :: xs, c :: cs => write_cotangents (write_cotangent ct x c) xs cs
  | _, _ => ct

/-- Transpose one instruction: read the input primals (undefined-aware),
pop the output cotangents, apply the operator's `T` rule, accumulate the
returned cotangents onto the instruction's inputs. -/
def transposeStep (envp : VEnv) (i : Instruction) (ct : CEnv) : Option CEnv :=
  let primals_in := i.inputs.map (read_primal envp)
  let r := read_cotangents ct i.out_binders
  Option.map (fun cts_out => write_cotangents r.2 i.inputs cts_out) (i.op.T r.1 primals_in)

/-- The transpose loop body over an already-reversed instruction list. -/
def transposeSeq (envp : VEnv) : List Instruction → CEnv → Option CEnv
  | [], ct => some ct
  | i :: rest, ct => Option.bind (transposeStep envp i ct) (transposeSeq envp rest)

/-- The final comprehension: pop the cotangent of every input binder whose
argument is a `PrimalProxy`, in binder order. -/
def read_final (ct : CEnv) : List (Var × TArg) → List Tensor
  | [] => []
  | (v, a) :: rest =>
    match a with
    | .proxy _ =>
      let r := read_cotangent ct v
      r.1 :: read_final r.2 rest
    | .val _ => read_final ct rest

/-- `Machine.run_program_transposed`: write the concrete primals, seed the
output cotangents, walk the instructions in reverse, and return the
cotangents of the proxy inputs (`list_zip` asserts the binder/argument
lengths agree). -/
def run_program_transposed (p : Program) (args : List TArg) (cts : List Tensor) :
    Option (List Tensor) :=
  let envp := write_primals emptyVEnv p.in_binders args
  let ct0 := write_cotangents emptyVEnv p.outs (cts.map some)
  Option.bind (transposeSeq envp p.instructions.reverse ct0) (fun ctf =>
    if p.in_binders.length = args.length then
      some (read_final ctf (p.in_binders.zip args))
    else none)

/-- The cotangent contributions a single `list_map(write_cotangent, ...)`
pass makes to the Var `v`, in order. -/
def contributions (v : Var) (ins : List Atom) (cs : List (Option Tensor)) : List Tensor :=
  (ins.zip cs).filterMap (fun p =>
    match p.1, p.2 with
    | Atom.var w, some t => if w = v then some t else none
    | _, _ => none)

/-- The cotangent of a Var after folding a list of contributions onto its
prior value. -/
def ctAfter (c0 : Option Tensor) (contr : List Tensor) : Option Tensor :=
  match c0, contr with
  | none, [] => none
  | none, c :: rest => some (rest.foldl tadd c)
  | some c, rest => some (rest.foldl tadd c)

/-- One accumulation pass sums, per Var, the contributions of all its uses
onto the prior cotangent. -/
theorem write_cotangents_eq_ctAfter (ins : List Atom) (cs : List (Option Tensor))
    (ct : CEnv) (v : Var) :
    write_cotangents ct ins cs v = ctAfter (ct v) (contributions v ins cs) := by
  induction ins generalizing cs ct with
  | nil =>
    cases h : ct v <;> simp [write_cotangents, contributions, ctAfter, h]
  | cons x ins ih =>
    cases cs with
    | nil =>
      cases h : ct v <;> simp [write_cotangents, contributions, ctAfter, h]
    | cons c cs =>
      rw [show write_cotangents ct (x :: ins) (c :: cs)
          = write_cotangents (write_cotangent ct x c) ins cs from rfl, ih]
      cases x with
      | lit t =>
        cases c <;>
          simp [write_cotangent, contributions, List.zip_cons_cons, List.filterMap_cons]
      | var w =>
        cases c with
        | none =>
          simp [write_cotangent, contributions, List.zip_cons_cons, List.filterMap_cons]
        | some t =>
          by_cases hwv : w = v
          · subst hwv
            have hv : (write_cotangent ct (Atom.var w) (some t)) w =
                some (match ct w with | some c => tadd c t | none => t) := by
              simp [write_cotangent]
            have hc : contributions w (Atom.var w :: ins) (some t :: cs) =
                t :: contributions w ins cs := by
              simp [contributions, List.zip_cons_cons, List.filterMap_cons]
            rw [hv, hc]
            cases h : ct w <;> simp [ctAfter, List.foldl_cons]
          · have hv : (write_cotangent ct (Atom.var w) (some t)) v = ct v := by
              simp only [write_cotangent]
              rw [if_neg (fun he => hwv he.symm)]
            have hc : contributions v (Atom.var w :: ins) (some t :: cs) =
                contributions v ins cs := by
              simp [contributions, List.zip_cons_cons, List.filterMap_cons, hwv]
            rw [hv, hc]

/-- Reading the cotangent of a Var never written yields the all-zero
tensor of the Var's shape and dtype, leaving the environment unchanged. -/
theorem read_cotangent_unset (ct : CEnv) (v : Var) (h : ct v = none) :
    read_cotangent ct v = (zeros v.aval, ct) ∧
    (zeros v.aval).shape = v.aval.shape ∧ (zeros v.aval).dtype = v.aval.dtype ∧
    ∀ x ∈ (zeros v.aval).data, x = 0 := by
  refine ⟨by simp [read_cotangent, h], rfl, rfl, ?_⟩
  intro x hx
  simpa using List.eq_of_mem_replicate hx

/-- Appending an instruction to a program makes it the first one the
transpose loop processes. -/
theorem transposeSeq_append_last (envp : VEnv) (ct : CEnv) (l : List Instruction)
    (i : Instruction) :
    transposeSeq envp (l ++ [i]).reverse ct =
      Option.bind (transposeStep envp i ct) (transposeSeq envp l.reverse) := by
  rw [List.reverse_append]
  rfl

/-- With distinct Vars, the sequential pops of the final comprehension are
plain reads (zeros for a Var never written), one per proxy argument, in
order. -/
theorem read_final_nodup (ct : CEnv) (l : List (Var × TArg))
    (hnd : (l.map Prod.fst).Nodup) :
    read_final ct l = l.filterMap (fun pa =>
      match pa.2 with
      | .proxy _ => some (match ct pa.1 with | some t => t | none => zeros pa.1.aval)
      | .val _ => none) := by
  induction l generalizing ct with
  | nil => rfl
  | cons pa rest ih =>
    obtain ⟨v, a⟩ := pa
    simp only [List.map_cons, List.nodup_cons] at hnd
    cases a with
    | val t =>
      simp only [read_final, List.filterMap_cons]
      exact ih ct hnd.2
    | proxy av =>
      simp only [read_final, List.filterMap_cons]
      cases h : ct v with
      | some t =>
        have hr : read_cotangent ct v = (t, fun w => if w = v then none else ct w) := by
          simp [read_cotangent, h]
        rw [hr]
        simp only [h]
        refine congrArg _ ?_
        rw [ih _ hnd.2]
        refine List.filterMap_congr ?_
        intro pb hpb
        have hne : pb.1 ≠ v := by
          intro he
          exact hnd.1 (he ▸ List.mem_map_of_mem Prod.fst hpb)
        simp [hne]
      | none =>
        have hr : read_cotangent ct v = (zeros v.aval, ct) := by
          simp [read_cotangent, h]
        rw [hr]
        simp only [h]
        exact congrArg _ (ih ct hnd.2)

/-- C5: `run_program_transposed` (1) processes instructions in reverse
order (the last instruction of the program is transposed first); (2) sums,
per Var, the cotangent contributions of all its uses within an
accumulation pass onto the prior value; (3) reads of a never-written
cotangent yield the all-zero tensor of the Var's shape and dtype; and
(4) returns exactly the cotangents of the input binders whose argument is
a `PrimalProxy`, in binder order (zeros for binders whose cotangent was
never written). -/
theorem run_program_transposed_spec :
    (∀ (envp : VEnv) (ct : CEnv) (l : List Instruction) (i : Instruction),
      transposeSeq envp (l ++ [i]).reverse ct =
        Option.bind (transposeStep envp i ct) (transposeSeq envp l.reverse)) ∧
    (∀ (ct : CEnv) (ins : List Atom) (cs : List (Option Tensor)) (v : Var),
      write_cotangents ct ins cs v = ctAfter (ct v) (contributions v ins cs)) ∧
    (∀ (ct : CEnv) (v : Var), ct v = none →
      read_cotangent ct v = (zeros v.aval, ct) ∧
      (zeros v.aval).shape = v.aval.shape ∧ (zeros v.aval).dtype = v.aval.dtype ∧
      ∀ x ∈ (zeros v.aval).data, x = 0) ∧
    (∀ (p : Program) (args : List TArg) (cts : List Tensor) (ctf : CEnv),
      p.in_binders.Nodup → args.length = p.in_binders.length →
      transposeSeq (write_primals emptyVEnv p.in_binders args) p.instructions.reverse
          (write_cotangents emptyVEnv p.outs (cts.map some)) = some ctf →
      run_program_transposed p args cts =
        some ((p.in_binders.zip args).filterMap (fun pa =>
          match pa.2 with
          | .proxy _ => some (match ctf pa.1 with | some t => t | none => zeros pa.1.aval)
          | .val _ => none))) := by
  refine ⟨transposeSeq_append_last, fun ct ins cs v => write_cotangents_eq_ctAfter ins cs ct v,
    read_cotangent_unset, ?_⟩
  intro p args cts ctf hnd hlen hseq
  show Option.bind (transposeSeq (write_primals emptyVEnv p.in_binders args)
      p.instructions.reverse (write_cotangents emptyVEnv p.outs (cts.map some)))
      (fun ctf => if p.in_binders.length = args.length then
        some (read_final ctf (p.in_binders.zip args)) else none) = _
  rw [hseq]
  show (if p.in_binders.length = args.length then
      some (read_final ctf (p.in_binders.zip args)) else none) = _
  rw [if_pos hlen.symm]
  refine congrArg _ ?_
  refine read_final_nodup ctf (p.in_binders.zip args) ?_
  rw [List.map_fst_zip p.in_binders args (by omega)]
  exact hnd

/-! ## `Machine.tree_flatten` / `tree_unflatten`

The registered container types of `Machine.__init__`: tuples, lists,
dicts and records (`Module`: metadata plus ordered children).  A Python
dict compares equal regardless of insertion order, so a dict value is
modelled canonically as its association list sorted strictly by key
(which is what `sorted(d.items())` produces inside the registered dict
flattener; `dsort_eq_of_sorted` below shows that sort is the identity on
the canonical form).  Leaves are opaque values of a type parameter. -/

mutual

inductive PyVal (α : Type) where
  | leaf (a : α)
  | tup (xs : PyList α)
  | pylist (xs : PyList α)
  | dict (xs : PyDict α)
  | record (meta : Nat) (xs : PyList α)

inductive PyList (α : Type) where
  | nil
  | cons (x : PyVal α) (xs : PyList α)

inductive PyDict (α : Type) where
  | dnil
  | dcons (k : Nat) (x : PyVal α) (xs : PyDict α)

end

mutual

/-- The treedef mirror of `PyTreeDef`: node type, node metadata (the
sorted key list for dicts, the record metadata), child treedefs. -/
inductive TreeDef where
  | leaf
  | tup (ts : TreeDefList)
  | pylist (ts : TreeDefList)
  | dict (keys : List Nat) (ts : TreeDefList)
  | record (meta : Nat) (ts : TreeDefList)

inductive TreeDefList where
  | nil
  | cons (t : TreeDef) (ts : TreeDefList)

end

/-- The keys of a dict, in stored (canonical) order. -/
def dkeys : PyDict α → List Nat
  | .dnil => []
  | .dcons k _ xs => k :: dkeys xs

/-- Insertion step of sorting a dict's items by key. -/
def dinsert (k : Nat) (x : PyVal α) : PyDict α → PyDict α
  | .dnil => .dcons k x .dnil
  | .dcons k' x' rest =>
    if k ≤ k' then .dcons k x (.dcons k' x' rest)
    else .dcons k' x' (dinsert k x rest)

/-- `sorted(d.items())` of the registered dict flattener. -/
def dsort : PyDict α → PyDict α
  | .dnil => .dnil
  | .dcons k x rest => dinsert k x (dsort rest)

/-- Whether a dict's keys are strictly increasing (the canonical form of a
Python dict with unique keys). -/
def dsortedB : PyDict α → Bool
  | .dnil => true
  | .dcons _ _ .dnil => true
  | .dcons k _ (.dcons k' y rest) => decide (k < k') && dsortedB (.dcons k' y rest)

/-- On the canonical form the sort of the dict flattener is the identity. -/
theorem dsort_eq_of_sorted : ∀ (xs : PyDict α), dsortedB xs = true → dsort xs = xs
  | .dnil, _ => rfl
  | .dcons _ _ .dnil, _ => rfl
  | .dcons k x (.dcons k' y rest'), h => by
    have h' : k < k' ∧ dsortedB (PyDict.dcons k' y rest') = true := by
      simpa [dsortedB] using h
    show dinsert k x (dsort (PyDict.dcons k' y rest')) = _
    rw [dsort_eq_of_sorted (PyDict.dcons k' y rest') h'.2]
    simp [dinsert, Nat.le_of_lt h'.1]

theorem dinsert_sizeOf (k : Nat) (x : PyVal α) :
    ∀ (xs : PyDict α), sizeOf (dinsert k x xs) = sizeOf (PyDict.dcons k x xs)
  | .dnil => rfl
  | .dcons k' x' rest => by
    by_cases h : k ≤ k'
    · simp [dinsert, h]
    · simp only [dinsert, if_neg h]
      have := dinsert_sizeOf k x rest
      simp only [PyDict.dcons.sizeOf_spec] at this ⊢
      omega

theorem dsort_sizeOf : ∀ (xs : PyDict α), sizeOf (dsort xs) = sizeOf xs
  | .dnil => rfl
  | .dcons k x rest => by
    show sizeOf (dinsert k x (dsort rest)) = _
    rw [dinsert_sizeOf]
    simp only [PyDict.dcons.sizeOf_spec]
    rw [dsort_sizeOf rest]

mutual

/-- Well-formedness: every dict inside the value is in canonical
(strictly key-sorted, hence unique-key) form. -/
def WFV : PyVal α → Bool
  | .leaf _ => true
  | .tup xs => WFL xs
  | .pylist xs => WFL xs
  | .dict xs => dsortedB xs && WFD xs
  | .record _ xs => WFL xs

def WFL : PyList α → Bool
  | .nil => true
  | .cons x xs => WFV x && WFL xs

def WFD : PyDict α → Bool
  | .dnil => true
  | .dcons _ x xs => WFV x && WFD xs

end

mutual

/-- `Machine.tree_flatten`'s recursion: flatten a node's children, chain
their leaves, record the treedef.  A dict flattens its items sorted by
key: metadata = the sorted keys, children = the values in that order. -/
def flattenV : PyVal α → List α × TreeDef
  | .leaf a => ([a], .leaf)
  | .tup xs => ((flattenL xs).1, .tup (flattenL xs).2)
  | .pylist xs => ((flattenL xs).1, .pylist (flattenL xs).2)
  | .dict xs => ((flattenD (dsort xs)).1, .dict (dkeys (dsort xs)) (flattenD (dsort xs)).2)
  | .record m xs => ((flattenL xs).1, .record m (flattenL xs).2)
  termination_by x => sizeOf x
  decreasing_by
    all_goals simp_wf
    rw [dsort_sizeOf]
    omega

def flattenL : PyList α → List α × TreeDefList
  | .nil => ([], .nil)
  | .cons x xs => ((flattenV x).1 ++ (flattenL xs).1, .cons (flattenV x).2 (flattenL xs).2)
  termination_by xs => sizeOf xs
  decreasing_by
    all_goals simp_wf
    all_goals omega

def flattenD : PyDict α → List α × TreeDefList
  | .dnil => ([], .nil)
  | .dcons _ x xs => ((flattenV x).1 ++ (flattenD xs).1, .cons (flattenV x).2 (flattenD xs).2)
  termination_by xs => sizeOf xs
  decreasing_by
    all_goals simp_wf
    all_goals omega

end

/-- The registered dict unflattener: `dict(list_zip(keys, vals))`, whose
`list_zip` asserts the lengths agree. -/
def zipDict (keys : List Nat) (vals : PyList α) : Option (PyDict α) :=
  match keys, vals with
  | [], .nil => some .dnil
  | k :: ks, .cons x xs => Option.map (PyDict.dcons k x) (zipDict ks xs)
  | _, _ => none

mutual

/-- `Machine.tree_unflatten`'s recursion: consume leaves from the front of
the flat list, rebuilding the container; returns the rebuilt value and the
remaining leaves. -/
def unflattenV : TreeDef → List α → Option (PyVal α × List α)
  | .leaf, [] => none
  | .leaf, a :: rest => some (.leaf a, rest)
  | .tup ts, l => Option.map (fun r => (PyVal.tup r.1, r.2)) (unflattenL ts l)
  | .pylist ts, l => Option.map (fun r => (PyVal.pylist r.1, r.2)) (unflattenL ts l)
  | .dict keys ts, l =>
    Option.bind (unflattenL ts l) (fun r =>
      Option.map (fun d => (PyVal.dict d, r.2)) (zipDict keys r.1))
  | .record m ts, l => Option.map (fun r => (PyVal.record m r.1, r.2)) (unflattenL ts l)

def unflattenL : TreeDefList → List α → Option (PyList α × List α)
  | .nil, l => some (.nil, l)
  | .cons t ts, l =>
    Option.bind (unflattenV t l) (fun r1 =>
      Option.map (fun r2 => (PyList.cons r1.1 r2.1, r2.2)) (unflattenL ts r1.2))

end

/-- The values of a dict, in stored (canonical) order. -/
def dvals : PyDict α → PyList α
  | .dnil => .nil
  | .dcons _ x xs => .cons x (dvals xs)

/-- Zipping a dict's keys back with its values rebuilds the dict. -/
theorem zipDict_dkeys_dvals : ∀ (xs : PyDict α), zipDict (dkeys xs) (dvals xs) = some xs
  | .dnil => rfl
  | .dcons k x xs => by
    show Option.map (PyDict.dcons k x) (zipDict (dkeys xs) (dvals xs)) = _
    rw [zipDict_dkeys_dvals xs]
    rfl

/-- `Machine.tree_flatten` at the top level. -/
def tree_flatten (x : PyVal α) : List α × TreeDef := flattenV x

/-- `Machine.tree_unflatten` at the top level: leftover leaves beyond the
treedef's needs are ignored, exactly as the source's iterator is simply
not drained. -/
def tree_unflatten (td : TreeDef) (xs : List α) : Option (PyVal α) :=
  Option.map Prod.fst (unflattenV td xs)

mutual

theorem unflatten_flattenV (x : PyVal α) (hwf : WFV x = true) (rest : List α) :
    unflattenV (flattenV x).2 ((flattenV x).1 ++ rest) = some (x, rest) := by
  cases x with
  | leaf a => simp [flattenV, unflattenV]
  | tup xs =>
    have h : WFL xs = true := by simpa [WFV] using hwf
    simp only [flattenV, unflattenV]
    rw [unflatten_flattenL xs h rest]
    rfl
  | pylist xs =>
    have h : WFL xs = true := by simpa [WFV] using hwf
    simp only [flattenV, unflattenV]
    rw [unflatten_flattenL xs h rest]
    rfl
  | dict xs =>
    have h : dsortedB xs = true ∧ WFD xs = true := by
      simpa [WFV, Bool.and_eq_true] using hwf
    simp only [flattenV, unflattenV]
    rw [dsort_eq_of_sorted xs h.1]
    rw [unflatten_flattenD xs h.2 rest]
    show Option.map (fun d => (PyVal.dict d, rest)) (zipDict (dkeys xs) (dvals xs)) = _
    rw [zipDict_dkeys_dvals xs]
    rfl
  | record m xs =>
    have h : WFL xs = true := by simpa [WFV] using hwf
    simp only [flattenV, unflattenV]
    rw [unflatten_flattenL xs h rest]
    rfl

theorem unflatten_flattenL (xs : PyList α) (hwf : WFL xs = true) (rest : List α) :
    unflattenL (flattenL xs).2 ((flattenL xs).1 ++ rest) = some (xs, rest) := by
  cases xs with
  | nil => simp [flattenL, unflattenL]
  | cons x xs =>
    have h : WFV x = true ∧ WFL xs = true := by simpa [WFL, Bool.and_eq_true] using hwf
    simp only [flattenL, unflattenL]
    rw [List.append_assoc, unflatten_flattenV x h.1 ((flattenL xs).1 ++ rest)]
    show Option.map _ (unflattenL (flattenL xs).2 ((flattenL xs).1 ++ rest)) = _
    rw [unflatten_flattenL xs h.2 rest]
    rfl

theorem unflatten_flattenD (xs : PyDict α) (hwf : WFD xs = true) (rest : List α) :
    unflattenL (flattenD xs).2 ((flattenD xs).1 ++ rest) = some (dvals xs, rest) := by
  cases xs with
  | dnil => simp [flattenD, unflattenL, dvals]
  | dcons k x xs =>
    have h : WFV x = true ∧ WFD xs = true := by simpa [WFD, Bool.and_eq_true] using hwf
    simp only [flattenD, unflattenL]
    rw [List.append_assoc, unflatten_flattenV x h.1 ((flattenD xs).1 ++ rest)]
    show Option.map _ (unflattenL (flattenD xs).2 ((flattenD xs).1 ++ rest)) = _
    rw [unflatten_flattenD xs h.2 rest]
    rfl

end

/-- C8: for every value built by nesting the registered container types
(tuples, lists, canonically represented dicts with unique keys, records)
over leaves, `tree_flatten` returns (leaves, treedef) such that
`tree_unflatten` on exactly those leaves rebuilds a structurally equal
value, and unflattening consumes the flat sequence from the front in
exactly the order the structure needs, leaving any extra suffix
untouched. -/
theorem tree_flatten_unflatten_roundtrip (x : PyVal α) (hwf : WFV x = true) :
    tree_unflatten (tree_flatten x).2 (tree_flatten x).1 = some x ∧
    ∀ rest, unflattenV (tree_flatten x).2 ((tree_flatten x).1 ++ rest) = some (x, rest) := by
  have h := unflatten_flattenV x hwf
  constructor
  · have h0 := h []
    rw [List.append_nil] at h0
    simp only [tree_flatten, tree_unflatten]
    rw [h0]
    rfl
  · intro rest
    simpa [tree_flatten] using h rest

/-- A concrete nested value exercising every registered container type. -/
def sampleTree : PyVal Nat :=
  .record 7 (.cons (.dict (.dcons 1 (.leaf 10) (.dcons 2 (.leaf 20) .dnil)))
    (.cons (.tup (.cons (.leaf 30) .nil))
      (.cons (.pylist (.cons (.leaf 40) .nil)) .nil)))

/-- C8 witness: the round trip at a concrete nested value. -/
theorem tree_flatten_unflatten_roundtrip_witness :
    tree_unflatten (tree_flatten sampleTree).2 (tree_flatten sampleTree).1
        = some sampleTree ∧
    ∀ rest, unflattenV (tree_flatten sampleTree).2 ((tree_flatten sampleTree).1 ++ rest)
        = some (sampleTree, rest) :=
  tree_flatten_unflatten_roundtrip sampleTree (by decide)

/-! ## `ProgramBuilder` (`ProgramTrace.pure`, `build`, `_inline_literals`)

A Python constant value is modelled with an explicit object id (`id(val)`
in the source) so that the dictionaries keyed by object identity can be
embedded; a constant is either a Python scalar (bool/int/float, whose
abstract value is the 0-d default-dtype tensor `environment.tensor`
produces) or a tensor object. -/

/-- A constant captured during staging: its Python object id plus its
value. -/
inductive PyConst where
  | pyscalar (objId : Nat) (v : Int)
  | tensorc (objId : Nat) (t : Tensor)
deriving DecidableEq, Repr

def constObjId : PyConst → Nat
  | .pyscalar i _ => i
  | .tensorc i _ => i

/-- `get_aval` of a constant: a Python scalar becomes a 0-d default-dtype
tensor, a tensor keeps its descriptor. -/
def constAval : PyConst → Typecheckor
  | .pyscalar _ _ => ⟨[], 0⟩
  | .tensorc _ t => get_aval t

/-- The constant's value as a tensor (what `Lit(val)` wraps). -/
def constTensor : PyConst → Tensor
  | .pyscalar _ v => ⟨[], 0, [v]⟩
  | .tensorc _ t => t

/-- `type(x) in Tracor.PYTHON_TYPES and not get_aval(x).shape`: exactly
the Python bool/int/float scalars. -/
def isScalarLit : PyConst → Bool
  | .pyscalar _ _ => true
  | .tensorc _ _ => false

/-- Association-list lookup keyed by numeric object ids (a Python dict
keyed by `id(...)`). -/
def alookup : List (Nat × β) → Nat → Option β
  | [], _ => none
  | (k', b) :: rest, k => if k' = k then some b else alookup rest k

/-- Association-list lookup keyed by Vars (a Python dict keyed by Var
object identity). -/
def vlookup : List (Var × β) → Var → Option β
  | [], _ => none
  | (v', b) :: rest, v => if v' = v then some b else vlookup rest v

/-- A staging tracer: its Python object id and abstract value. -/
structure ProgramTracor where
  tid : Nat
  aval : Typecheckor
deriving DecidableEq, Repr

/-- The mutable state of a `ProgramBuilder`: appended instructions, the
tracer-id → Var dict, the constant-object-id → tracer-id dict, the
insertion-ordered Var → constant dict, and a fresh-id counter standing for
Python's allocation of new objects. -/
structure BuilderState where
  instructions : List Instruction
  tracer_to_var : List (Nat × Var)
  const_tracers : List (Nat × Nat)
  constvals : List (Var × PyConst)
  next : Nat

def builderInit : BuilderState := ⟨[], [], [], [], 0⟩

/-- `ProgramTrace.pure`: look the constant up by object id; on a miss,
allocate a fresh tracer and a fresh constant-input Var
(`new_tracer` + `add_const`). -/
def pure (s : BuilderState) (val : PyConst) : ProgramTracor × BuilderState :=
  match alookup s.const_tracers (constObjId val) with
  | some tid => (⟨tid, constAval val⟩, s)
  | none =>
    let tr : ProgramTracor := ⟨s.next, constAval val⟩
    let var : Var := ⟨s.next + 1, constAval val⟩
    (tr, { s with
      tracer_to_var := (tr.tid, var) :: s.tracer_to_var,
      const_tracers := (constObjId val, tr.tid) :: s.const_tracers,
      constvals := s.constvals ++ [(var, val)],
      next := s.next + 2 })

/-- Sequence a partial function over a list, failing on the first miss
(`KeyError` from `self.tracer_to_var[id(t)]`). -/
def mapOption (f : α → Option β) : List α → Option (List β)
  | [] => some []
  | a :: l => Option.bind (f a) fun b => Option.map (b :: ·) (mapOption f l)

/-- The Program `ProgramBuilder.build` assembles before typechecking and
literal inlining: constant Vars first, then the parameter tracers' Vars;
outputs are the out tracers' Vars. -/
def build0 (s : BuilderState) (in_tracers out_tracers : List ProgramTracor) :
    Option Program :=
  Option.bind (mapOption (fun t => alookup s.tracer_to_var t.tid) in_tracers)
    fun invars =>
  Option.map (fun outvars =>
    ({ in_binders := s.constvals.map Prod.fst ++ invars,
       instructions := s.instructions,
       outs := outvars.map Atom.var,
       num_consts := s.constvals.length,
       name := "my_program" } : Program))
    (mapOption (fun t => alookup s.tracer_to_var t.tid) out_tracers)

/-- What the literal map of `_inline_literals` resolves a Var to: the
inlined Lit when the Var is a scalar constant input, nothing otherwise. -/
def scalarLitFor (cvs : List (Var × PyConst)) (v : Var) : Option Atom :=
  Option.bind (vlookup cvs v)
    (fun c => if isScalarLit c then some (Atom.lit (constTensor c)) else none)

/-- The literal substitution `_inline_literals` applies: a scalar constant
input Var is replaced by an inlined Lit of its value at each use site;
every other atom is kept. -/
def inlineSubst (consts : List (Var × PyConst)) : Atom → Atom
  | .var v => (scalarLitFor consts v).getD (.var v)
  | .lit t => .lit t

/-- `ProgramBuilder._inline_literals`: split off the constant binders,
partition them by scalar-ness, replace each scalar constant Var by a Lit
atom at each use site, drop those binders, and re-typecheck.  `split_list`
asserts that the program has at least `len(consts)` input binders. -/
def _inline_literals (program : Program) (consts : List PyConst) :
    Except TcErr (Program × List PyConst) :=
  if program.in_binders.length < consts.length then .error .assertError
  else
    let const_binders := program.in_binders.take consts.length
    let other_binders := program.in_binders.drop consts.length
    let scalars := consts.map isScalarLit
    let new_const_binders := (partition_list scalars const_binders).1
    let lit_binders := (partition_list scalars const_binders).2
    let new_consts := (partition_list scalars consts).1
    let lit_vals := (partition_list scalars consts).2
    let lits := lit_binders.zip (lit_vals.map (fun c => Atom.lit (constTensor c)))
    let subst : Atom → Atom := fun a =>
      match a with
      | .var v => (vlookup lits v).getD (.var v)
      | .lit t => .lit t
    let new_program : Program :=
      { in_binders := new_const_binders ++ other_binders,
        instructions := program.instructions.map
          (fun i => ⟨i.op, i.inputs.map subst, i.out_binders⟩),
        outs := program.outs.map subst,
        num_consts := new_consts.length,
        name := program.name }
    bindE (typecheck_program new_program) fun _ => .ok (new_program, new_consts)

/-- The error classes `ProgramBuilder.build` can raise: a `KeyError` from
an unregistered tracer, or a typechecking error. -/
inductive BuildErr where
  | keyError
  | typeErr (e : TcErr)
deriving DecidableEq, Repr

def liftTc : Except TcErr α → Except BuildErr α
  | .ok a => .ok a
  | .error e => .error (.typeErr e)

def liftOpt : Option α → Except BuildErr α
  | some a => .ok a
  | none => .error .keyError

theorem liftTc_ok_elim (x : Except TcErr α) (a : α) (h : liftTc x = .ok a) :
    x = .ok a := by
  cases x with
  | ok b => simpa [liftTc] using h
  | error e => exact absurd h (by simp [liftTc])

theorem liftOpt_ok_elim (x : Option α) (a : α) (h : liftOpt x = .ok a) :
    x = some a := by
  cases x with
  | some b => simpa [liftOpt] using h
  | none => exact absurd h (by simp [liftOpt])

/-- `ProgramBuilder.build`: assemble the Program, typecheck it, inline the
scalar literals (which re-typechecks), and return the final Program with
the remaining constants. -/
def build (s : BuilderState) (in_tracers out_tracers : List ProgramTracor) :
    Except BuildErr (Program × List PyConst) :=
  bindE (liftOpt (build0 s in_tracers out_tracers)) fun program =>
  bindE (liftTc (typecheck_program program)) fun _ =>
  liftTc (_inline_literals program (s.constvals.map Prod.snd))

theorem vlookup_eq_none_of_not_mem (l : List (Var × β)) (v : Var)
    (h : v ∉ l.map Prod.fst) : vlookup l v = none := by
  induction l with
  | nil => rfl
  | cons p rest ih =>
    obtain ⟨w, b⟩ := p
    simp only [List.map_cons, List.mem_cons] at h
    push_neg at h
    simp only [vlookup]
    rw [if_neg (fun he => h.1 he.symm)]
    exact ih h.2

theorem scalarLitFor_cons (w : Var) (c : PyConst) (rest : List (Var × PyConst)) (v : Var) :
    scalarLitFor ((w, c) :: rest) v =
      if w = v then (if isScalarLit c then some (Atom.lit (constTensor c)) else none)
      else scalarLitFor rest v := by
  simp only [scalarLitFor, vlookup]
  by_cases hwv : w = v
  · rw [if_pos hwv, if_pos hwv]
    rfl
  · rw [if_neg hwv, if_neg hwv]

theorem maskFilter_cons (b f : Bool) (bs : List Bool) (x : α) (l : List α) :
    maskFilter b (f :: bs) (x :: l) =
      if f = b then x :: maskFilter b bs l else maskFilter b bs l := by
  simp only [maskFilter, List.zip_cons_cons, List.filterMap_cons]
  by_cases h : f = b <;> simp [h]

theorem mem_maskFilter (b : Bool) (bs : List Bool) (l : List α) (x : α)
    (h : x ∈ maskFilter b bs l) : x ∈ l := by
  simp only [maskFilter, List.mem_filterMap] at h
  obtain ⟨⟨b', y⟩, hmem, hy⟩ := h
  split at hy
  · exact (by simpa using hy) ▸ (List.of_mem_zip hmem).2
  · exact absurd hy (by simp)

theorem maskFilter_map_true (f : γ → Bool) (g : γ → δ) (l : List γ) :
    maskFilter true (l.map f) (l.map g) = (l.filter f).map g := by
  induction l with
  | nil => rfl
  | cons x l ih =>
    simp only [List.map_cons, maskFilter, List.zip_cons_cons, List.filterMap_cons]
    cases hx : f x with
    | true => simp [List.filter_cons, hx, ← ih, maskFilter]
    | false => simp [List.filter_cons, hx, ← ih, maskFilter]

theorem maskFilter_map_false (f : γ → Bool) (g : γ → δ) (l : List γ) :
    maskFilter false (l.map f) (l.map g) = (l.filter (fun x => !(f x))).map g := by
  induction l with
  | nil => rfl
  | cons x l ih =>
    simp only [List.map_cons, maskFilter, List.zip_cons_cons, List.filterMap_cons]
    cases hx : f x with
    | true => simp [List.filter_cons, hx, ← ih, maskFilter]
    | false => simp [List.filter_cons, hx, ← ih, maskFilter]

/-- The literal dict of `_inline_literals` resolves exactly the scalar
constant Vars, to the Lit of their value. -/
theorem lits_lookup (cvs : List (Var × PyConst))
    (hnd : (cvs.map Prod.fst).Nodup) (v : Var) :
    vlookup ((maskFilter true (cvs.map fun p => isScalarLit p.2) (cvs.map Prod.fst)).zip
      ((maskFilter true (cvs.map fun p => isScalarLit p.2) (cvs.map Prod.snd)).map
        (fun c => Atom.lit (constTensor c)))) v = scalarLitFor cvs v := by
  induction cvs with
  | nil => rfl
  | cons pc rest ih =>
    obtain ⟨w, c⟩ := pc
    simp only [List.map_cons, List.nodup_cons] at hnd
    simp only [List.map_cons, maskFilter_cons, scalarLitFor_cons]
    cases hc : isScalarLit c with
    | true =>
      rw [if_pos rfl, if_pos rfl, List.map_cons, List.zip_cons_cons]
      simp only [vlookup]
      by_cases hwv : w = v
      · rw [if_pos hwv, if_pos hwv]
        simp
      · rw [if_neg hwv, if_neg hwv]
        exact ih hnd.2
    | false =>
      rw [if_neg (by simp), if_neg (by simp)]
      by_cases hwv : w = v
      · rw [if_pos hwv]
        subst hwv
        refine Eq.trans (vlookup_eq_none_of_not_mem _ _ ?_) rfl
        intro hmem
        refine hnd.1 ?_
        obtain ⟨pz, hz, rfl⟩ := List.mem_map.1 hmem
        have := List.of_mem_zip hz
        exact mem_maskFilter _ _ _ _ this.1
      · rw [if_neg hwv]
        exact ih hnd.2

/-- Characterization of `_inline_literals` on a builder-shaped program:
the surviving constants are exactly the non-scalar ones (in order), the
constant arity drops by the number of scalar constants, every use of a
scalar constant Var is replaced by the Lit of its value, and the result is
re-typechecked. -/
theorem inline_literals_spec (cvs : List (Var × PyConst)) (invars : List Var)
    (p0 : Program) (hin : p0.in_binders = cvs.map Prod.fst ++ invars)
    (hnd : (cvs.map Prod.fst).Nodup)
    (p : Program) (cs : List PyConst)
    (h : _inline_literals p0 (cvs.map Prod.snd) = .ok (p, cs)) :
    (∃ ty, typecheck_program p = .ok ty) ∧
    cs = (cvs.filter (fun pc => !(isScalarLit pc.2))).map Prod.snd ∧
    p.num_consts = cs.length ∧
    p.num_consts + (cvs.filter (fun pc => isScalarLit pc.2)).length = cvs.length ∧
    p.in_binders = (cvs.filter (fun pc => !(isScalarLit pc.2))).map Prod.fst ++ invars ∧
    p.instructions = p0.instructions.map
      (fun i => ⟨i.op, i.inputs.map (inlineSubst cvs), i.out_binders⟩) ∧
    p.outs = p0.outs.map (inlineSubst cvs) ∧
    p.name = p0.name := by
  have hflags : (cvs.map Prod.snd).map isScalarLit = cvs.map (fun p => isScalarLit p.2) := by
    rw [List.map_map]
    rfl
  have hlen1 : (cvs.map (fun p => isScalarLit p.2)).length = (cvs.map Prod.fst).length := by
    simp
  have hlen2 : (cvs.map (fun p => isScalarLit p.2)).length = (cvs.map Prod.snd).length := by
    simp
  have htake : p0.in_binders.take (cvs.map Prod.snd).length = cvs.map Prod.fst := by
    rw [hin, show (cvs.map Prod.snd).length = (cvs.map Prod.fst).length from by simp,
      List.take_left]
  have hdrop : p0.in_binders.drop (cvs.map Prod.snd).length = invars := by
    rw [hin, show (cvs.map Prod.snd).length = (cvs.map Prod.fst).length from by simp,
      List.drop_left]
  have hguard : ¬ (p0.in_binders.length < (cvs.map Prod.snd).length) := by
    rw [hin]
    simp
  simp only [_inline_literals] at h
  rw [if_neg hguard, htake, hdrop, hflags] at h
  rw [partition_list_eq_maskFilter _ _ hlen1, partition_list_eq_maskFilter _ _ hlen2] at h
  obtain ⟨ty, hty, heq⟩ := bindE_eq_ok _ _ _ h
  have hsubst : ∀ a : Atom,
      (match a with
       | .var v => (vlookup ((maskFilter true (cvs.map fun p => isScalarLit p.2)
            (cvs.map Prod.fst)).zip
          ((maskFilter true (cvs.map fun p => isScalarLit p.2) (cvs.map Prod.snd)).map
            (fun c => Atom.lit (constTensor c)))) v).getD (.var v)
       | .lit t => .lit t) = inlineSubst cvs a := by
    intro a
    cases a with
    | var v => simp only [inlineSubst, lits_lookup cvs hnd v, scalarLitFor]
    | lit t => rfl
  simp only [Except.ok.injEq, Prod.mk.injEq] at heq
  obtain ⟨hp, hcs⟩ := heq
  have hmf_false_fst := maskFilter_map_false (fun p => isScalarLit p.2) Prod.fst cvs
  have hmf_false_snd := maskFilter_map_false (fun p => isScalarLit p.2) Prod.snd cvs
  have hmf_true_snd := maskFilter_map_true (fun p => isScalarLit p.2) Prod.snd cvs
  subst hp
  subst hcs
  refine ⟨⟨ty, hty⟩, ?_, rfl, ?_, ?_, ?_, ?_, rfl⟩
  · rw [hmf_false_snd]
  · rw [hmf_false_snd, hmf_true_snd]
    have h1 : ((cvs.filter fun pc => !(isScalarLit pc.2)).map Prod.snd).length
        = (cvs.filter fun pc => !(isScalarLit pc.2)).length := by simp
    have h2 : ((cvs.filter fun pc => isScalarLit pc.2).map Prod.snd).length
        = (cvs.filter fun pc => isScalarLit pc.2).length := by simp
    have h3 := List.length_eq_length_filter_add (l := cvs) (fun pc => isScalarLit pc.2)
    simp only [List.length_map]
    omega
  · rw [hmf_false_fst]
  · refine List.map_congr_left ?_
    intro i _
    congr 1
    exact List.map_congr_left (fun a _ => hsubst a)
  · exact List.map_congr_left (fun a _ => hsubst a)

/-- C7 (amended): `ProgramBuilder.build` assembles a Program whose input
binders are the collected constant Vars first — deduplicated by the
constant's object identity: `pure` reuses the existing tracer (and hence
Var) for the same constant object and appends a fresh constant Var
otherwise — followed by the parameter Vars; that Program is typechecked;
the literal-inlining pass replaces every use of a scalar (Python
bool/int/float) constant input with an inlined Lit of its value, dropping
those binders and decreasing `num_consts` by the number of scalar
constants; and the inlined Program is typechecked again and returned. -/
theorem build_spec (s : BuilderState) (ins outs : List ProgramTracor)
    (p : Program) (cs : List PyConst)
    (h : build s ins outs = .ok (p, cs)) :
    (∃ p0 invars outvars ty0 ty1,
      mapOption (fun t => alookup s.tracer_to_var t.tid) ins = some invars ∧
      mapOption (fun t => alookup s.tracer_to_var t.tid) outs = some outvars ∧
      build0 s ins outs = some p0 ∧
      p0.in_binders = s.constvals.map Prod.fst ++ invars ∧
      p0.instructions = s.instructions ∧
      p0.outs = outvars.map Atom.var ∧
      p0.num_consts = s.constvals.length ∧
      typecheck_program p0 = .ok ty0 ∧
      _inline_literals p0 (s.constvals.map Prod.snd) = .ok (p, cs) ∧
      typecheck_program p = .ok ty1 ∧
      cs = (s.constvals.filter (fun pc => !(isScalarLit pc.2))).map Prod.snd ∧
      p.num_consts = cs.length ∧
      p.num_consts + (s.constvals.filter (fun pc => isScalarLit pc.2)).length
        = p0.num_consts ∧
      p.in_binders = (s.constvals.filter (fun pc => !(isScalarLit pc.2))).map Prod.fst
        ++ invars ∧
      p.instructions = p0.instructions.map
        (fun i => ⟨i.op, i.inputs.map (inlineSubst s.constvals), i.out_binders⟩) ∧
      p.outs = p0.outs.map (inlineSubst s.constvals)) ∧
    (∀ (c : PyConst) (tid : Nat),
      alookup s.const_tracers (constObjId c) = some tid →
      pure s c = (⟨tid, constAval c⟩, s)) ∧
    (∀ (c : PyConst),
      alookup s.const_tracers (constObjId c) = none →
      (pure s c).2.constvals = s.constvals ++ [(⟨s.next + 1, constAval c⟩, c)] ∧
      (pure s c).1 = ⟨s.next, constAval c⟩) := by
  refine ⟨?_, ?_, ?_⟩
  · simp only [build] at h
    obtain ⟨program, hprog, h⟩ := bindE_eq_ok _ _ _ h
    have hb0 := liftOpt_ok_elim _ _ hprog
    obtain ⟨u, hty0, h⟩ := bindE_eq_ok _ _ _ h
    have hty0' := liftTc_ok_elim _ _ hty0
    have hinl := liftTc_ok_elim _ _ h
    simp only [build0] at hb0
    cases hmi : mapOption (fun t => alookup s.tracer_to_var t.tid) ins with
    | none => rw [hmi] at hb0; exact absurd hb0 (by simp)
    | some invars =>
      rw [hmi] at hb0
      cases hmo : mapOption (fun t => alookup s.tracer_to_var t.tid) outs with
      | none => rw [hmo] at hb0; exact absurd hb0 (by simp)
      | some outvars =>
        rw [hmo] at hb0
        simp only [Option.some_bind, Option.map_some', Option.some.injEq] at hb0
        have hnd : (s.constvals.map Prod.fst).Nodup := by
          have hwf := ((typecheck_program_ok_iff program u).1 hty0').1.1
          rw [← hb0] at hwf
          exact (List.nodup_append.1 hwf).1
        have hspec := inline_literals_spec s.constvals invars program
          (by rw [← hb0]) hnd p cs hinl
        obtain ⟨⟨ty1, hty1⟩, hcs, hnum, hsum, hbind, hinstr, houts2, -⟩ := hspec
        refine ⟨program, invars, outvars, u, ty1, rfl, rfl, ?_, ?_, ?_, ?_, ?_,
          hty0', hinl, hty1, hcs, hnum, ?_, hbind, hinstr, houts2⟩
        · simp only [build0, hmi, hmo, Option.some_bind, Option.map_some']
          rw [hb0]
        · rw [← hb0]
        · rw [← hb0]
        · rw [← hb0]
        · rw [← hb0]
        · rw [← hb0]
          exact hsum
  · intro c tid hc
    simp [pure, hc]
  · intro c hc
    simp [pure, hc]

/-- A builder state holding one scalar constant 7 (object id 50),
captured through `pure`. -/
def wS : BuilderState := (pure builderInit (PyConst.pyscalar 50 7)).2

def wT : ProgramTracor := (pure builderInit (PyConst.pyscalar 50 7)).1

/-- The Program `build` returns for `wS`: the scalar constant was inlined
as a Lit output and its binder dropped. -/
def wP : Program := ⟨[], [], [.lit ⟨[], 0, [7]⟩], 0, "my_program"⟩

/-- C7 witness: the build pipeline at the one-scalar-constant builder
state. -/
theorem build_spec_witness :
    (∃ p0 invars outvars ty0 ty1,
      mapOption (fun t : ProgramTracor => alookup wS.tracer_to_var t.tid)
        ([] : List ProgramTracor) = some invars ∧
      mapOption (fun t : ProgramTracor => alookup wS.tracer_to_var t.tid) [wT]
        = some outvars ∧
      build0 wS [] [wT] = some p0 ∧
      p0.in_binders = wS.constvals.map Prod.fst ++ invars ∧
      p0.instructions = wS.instructions ∧
      p0.outs = outvars.map Atom.var ∧
      p0.num_consts = wS.constvals.length ∧
      typecheck_program p0 = .ok ty0 ∧
      _inline_literals p0 (wS.constvals.map Prod.snd) = .ok (wP, []) ∧
      typecheck_program wP = .ok ty1 ∧
      ([] : List PyConst) = (wS.constvals.filter (fun pc => !(isScalarLit pc.2))).map
        Prod.snd ∧
      wP.num_consts = ([] : List PyConst).length ∧
      wP.num_consts + (wS.constvals.filter (fun pc => isScalarLit pc.2)).length
        = p0.num_consts ∧
      wP.in_binders = (wS.constvals.filter (fun pc => !(isScalarLit pc.2))).map Prod.fst
        ++ invars ∧
      wP.instructions = p0.instructions.map
        (fun i => ⟨i.op, i.inputs.map (inlineSubst wS.constvals), i.out_binders⟩) ∧
      wP.outs = p0.outs.map (inlineSubst wS.constvals)) ∧
    (∀ (c : PyConst) (tid : Nat),
      alookup wS.const_tracers (constObjId c) = some tid →
      pure wS c = (⟨tid, constAval c⟩, wS)) ∧
    (∀ (c : PyConst),
      alookup wS.const_tracers (constObjId c) = none →
      (pure wS c).2.constvals = wS.constvals ++ [(⟨wS.next + 1, constAval c⟩, c)] ∧
      (pure wS c).1 = ⟨wS.next, constAval c⟩) :=
  build_spec wS [] [wT] wP [] rfl

/-- Two distinct constant objects with the same tensor value. -/
def cexC1 : PyConst := .tensorc 100 ⟨[2], 0, [1, 2]⟩

def cexC2 : PyConst := .tensorc 200 ⟨[2], 0, [1, 2]⟩

def cexS : BuilderState := (pure (pure builderInit cexC1).2 cexC2).2

def cexT1 : ProgramTracor := (pure builderInit cexC1).1

def cexT2 : ProgramTracor := (pure (pure builderInit cexC1).2 cexC2).1

def buildNumConsts : Except BuildErr (Program × List PyConst) → Option Nat
  | .ok r => some r.1.num_consts
  | .error _ => none

def buildInBinders : Except BuildErr (Program × List PyConst) → Option (List Var)
  | .ok r => some r.1.in_binders
  | .error _ => none

/-- C7 counterexample: two equal-valued but distinct constant objects do
NOT share one Var — `pure` deduplicates by `id(val)` (object identity),
not by the literal value, so the built Program keeps two constant input
binders for the same value. -/
theorem build_value_dedup_counterexample :
    buildNumConsts (build cexS [] [cexT1, cexT2]) = some 2 ∧
    buildInBinders (build cexS [] [cexT1, cexT2])
      = some [⟨1, ⟨[2], 0⟩⟩, ⟨3, ⟨[2], 0⟩⟩] ∧
    constTensor cexC1 = constTensor cexC2 ∧
    ((⟨1, ⟨[2], 0⟩⟩ : Var) ≠ ⟨3, ⟨[2], 0⟩⟩) :=
  ⟨rfl, rfl, rfl, by decide⟩

/-! ## `Machine.partial_run_program`

The forward unknown-flag propagation (`environment: Dict[Var, bool]`), the
default `Operator.partial_run_instruction` rule, and the split into
program1 (known half) and program2 (unknown half) with residual Vars.
Python's `residuals` set is modelled by `List.dedup` of the collected
residuals (the set's iteration order is unspecified; any fixed
duplicate-free order realizes `list(residuals)`, and the correctness
property is order-independent).  The final
`typecheck_partial_run_program` sanity call of the source can only raise,
never alter the returned value, so the model returns the split directly. -/

/-- The unknown-flag environment. -/
abbrev FEnv := Var → Option Bool

/-- `read` of the flag loop: `type(x) is Var and environment[x]` — a Lit is
known, a Var looks up its flag (KeyError when absent). -/
def flagRead (F : FEnv) : Atom → Option Bool
  | .var v => F v
  | .lit _ => some false

/-- `write` of the flag loop: plain dict assignment. -/
def flagWriteMany (F : FEnv) : List Var → List Bool → FEnv
  | v :: vs, b :: bs => flagWriteMany (fun w => if w = v then some b else F w) vs bs
  | _, _ => F

/-- The default `Operator.partial_run_instruction`: with any unknown input
the instruction goes whole to program2, its outputs are unknown, and its
known Var inputs become residual candidates; with all inputs known it goes
whole to program1 with known outputs. -/
def partial_run_instruction (unks_in : List Bool) (i : Instruction) :
    Option Instruction × Option Instruction × List Bool × List Var :=
  if unks_in.any id then
    (none, some i, i.out_binders.map (fun _ => true),
      (unks_in.zip i.inputs).filterMap (fun p =>
        match p.2 with
        | .var v => if p.1 then none else some v
        | .lit _ => none))
  else (some i, none, i.out_binders.map (fun _ => false), [])

/-- Prepend an optional instruction. -/
def consOpt : Option Instruction → List Instruction → List Instruction
  | none, l => l
  | some i, l => i :: l

/-- Sequence a partial function over a list (KeyError propagation). -/
def mapOpt (f : α → Option β) : List α → Option (List β)
  | [] => some []
  | a :: l => Option.bind (f a) fun b => Option.map (b :: ·) (mapOpt f l)

/-- The instruction loop of `partial_run_program`: propagate flags,
collect the two instruction lists and the residual candidates. -/
def splitLoop : List Instruction → FEnv →
    Option (FEnv × List Instruction × List Instruction × List Var)
  | [], F => some (F, [], [], [])
  | i :: rest, F =>
    Option.bind (mapOpt (flagRead F) i.inputs) fun unks_in =>
    let r := partial_run_instruction unks_in i
    let F1 := flagWriteMany F i.out_binders r.2.2.1
    Option.map (fun acc =>
      (acc.1, consOpt r.1 acc.2.1, consOpt r.2.1 acc.2.2.1, r.2.2.2 ++ acc.2.2.2))
      (splitLoop rest F1)

/-- `Machine.partial_run_program` with `instantiate=None`: flag the inputs,
run the split loop, flag the outputs, and assemble the two programs with
the residual Vars appended to program1's outputs and prepended to
program2's inputs. -/
def partial_run_program (p : Program) (in_unknowns : List Bool) :
    Option (Program × Program × List Bool × Nat) :=
  let F0 := flagWriteMany (fun _ => none) p.in_binders in_unknowns
  Option.bind (splitLoop p.instructions F0) fun acc =>
  Option.map (fun out_unknowns =>
    let residuals := acc.2.2.2.dedup
    let ins12 := partition_list in_unknowns p.in_binders
    let outs12 := partition_list out_unknowns p.outs
    (({ in_binders := ins12.1, instructions := acc.2.1,
        outs := outs12.1 ++ residuals.map Atom.var, num_consts := 0,
        name := p.name ++ "_partial1" } : Program),
     ({ in_binders := residuals ++ ins12.2, instructions := acc.2.2.1,
        outs := outs12.2, num_consts := 0,
        name := p.name ++ "_partial2" } : Program),
     out_unknowns, residuals.length))
    (mapOpt (flagRead acc.1) p.outs)

theorem mapOpt_ok_iff_forall2 (f : α → Option β) (l : List α) (r : List β) :
    mapOpt f l = some r ↔ List.Forall₂ (fun a b => f a = some b) l r := by
  induction l generalizing r with
  | nil =>
    simp only [mapOpt]
    constructor
    · intro h
      cases r with
      | nil => exact List.Forall₂.nil
      | cons b bs => exact absurd h (by simp)
    · intro h; cases h; rfl
  | cons a l ih =>
    simp only [mapOpt]
    constructor
    · intro h
      cases ha : f a with
      | none => rw [ha] at h; exact absurd h (by simp)
      | some b =>
        rw [ha, Option.some_bind] at h
        cases hl : mapOpt f l with
        | none => rw [hl] at h; exact absurd h (by simp)
        | some bs =>
          rw [hl, Option.map_some'] at h
          obtain rfl : b :: bs = r := by simpa using h
          exact List.Forall₂.cons ha ((ih bs).1 hl)
    · intro h
      cases h with
      | cons ha hl => rw [ha, Option.some_bind, (ih _).2 hl, Option.map_some']

theorem mapExcept_append_ok (f : α → Except ε β) (l1 l2 : List α) (r1 r2 : List β)
    (h1 : mapExcept f l1 = .ok r1) (h2 : mapExcept f l2 = .ok r2) :
    mapExcept f (l1 ++ l2) = .ok (r1 ++ r2) := by
  induction l1 generalizing r1 with
  | nil =>
    simp only [mapExcept, Except.ok.injEq] at h1
    subst h1
    simpa using h2
  | cons a l ih =>
    obtain ⟨b, bs, ha, hl, rfl⟩ := mapExcept_cons_elim f a l r1 h1
    simpa using mapExcept_cons_ok f a (l ++ l2) b (bs ++ r2) ha (ih bs hl)

/-- Untouched/updated characterization of the flag write loop. -/
theorem flagWriteMany_elim (vs : List Var) (bs : List Bool) (F : FEnv)
    (hnd : vs.Nodup) (hlen : vs.length ≤ bs.length) :
    (∀ v, v ∉ vs → flagWriteMany F vs bs v = F v) ∧
    (∀ k, (hk : k < vs.length) → (hk2 : k < bs.length) →
      flagWriteMany F vs bs vs[k] = some bs[k]) := by
  induction vs generalizing bs F with
  | nil =>
    refine ⟨fun v _ => ?_, fun k hk _ => absurd hk (by simp)⟩
    cases bs <;> rfl
  | cons v vs ih =>
    cases bs with
    | nil => simp at hlen
    | cons b bs =>
      simp only [List.length_cons, Nat.succ_le_succ_iff] at hlen
      obtain ⟨hvnotin, hnd'⟩ := List.nodup_cons.1 hnd
      obtain ⟨hun, hidx⟩ :=
        ih bs (fun w => if w = v then some b else F w) hnd' hlen
      refine ⟨?_, ?_⟩
      · intro w hw
        have h1 : w ∉ vs := fun hm => hw (List.mem_cons.2 (Or.inr hm))
        have h2 : w ≠ v := fun he => hw (List.mem_cons.2 (Or.inl he))
        simp only [flagWriteMany]
        rw [hun w h1]
        simp [h2]
      · intro k hk hk2
        cases k with
        | zero =>
          simp only [flagWriteMany, List.getElem_cons_zero]
          rw [hun v hvnotin]
          simp
        | succ k =>
          simp only [flagWriteMany, List.getElem_cons_succ]
          exact hidx k (by simpa using hk) (by simpa using hk2)

/-- Elements of a mask filter are exactly the values at positions whose
flag matches. -/
theorem mem_maskFilter_iff (b : Bool) (bs : List Bool) (l : List α) (x : α)
    (hlen : bs.length = l.length) :
    x ∈ maskFilter b bs l ↔
      ∃ k, ∃ (hk : k < l.length), ∃ (hk2 : k < bs.length), bs[k] = b ∧ l[k] = x := by
  induction bs generalizing l with
  | nil =>
    cases l with
    | nil => simp [maskFilter]
    | cons y l => simp at hlen
  | cons b0 bs ih =>
    cases l with
    | nil => simp at hlen
    | cons y l =>
      simp only [List.length_cons, Nat.succ.injEq] at hlen
      rw [maskFilter_cons]
      by_cases hb : b0 = b
      · subst hb
        rw [if_pos rfl, List.mem_cons, ih l hlen]
        constructor
        · rintro (rfl | ⟨k, hk, hk2, hbk, hlk⟩)
          · exact ⟨0, by simp, by simp, rfl, rfl⟩
          · exact ⟨k + 1, by simpa using hk, by simpa using hk2,
              by simpa using hbk, by simpa using hlk⟩
        · rintro ⟨k, hk, hk2, hbk, hlk⟩
          cases k with
          | zero => exact Or.inl (by simpa using hlk.symm)
          | succ k =>
            exact Or.inr ⟨k, by simpa using hk, by simpa using hk2,
              by simpa using hbk, by simpa using hlk⟩
      · rw [if_neg hb, ih l hlen]
        constructor
        · rintro ⟨k, hk, hk2, hbk, hlk⟩
          exact ⟨k + 1, by simpa using hk, by simpa using hk2,
            by simpa using hbk, by simpa using hlk⟩
        · rintro ⟨k, hk, hk2, hbk, hlk⟩
          cases k with
          | zero => exact absurd (by simpa using hbk) hb
          | succ k =>
            exact ⟨k, by simpa using hk, by simpa using hk2,
              by simpa using hbk, by simpa using hlk⟩

theorem maskFilter_sublist (b : Bool) (bs : List Bool) (l : List α) :
    List.Sublist (maskFilter b bs l) l := by
  induction bs generalizing l with
  | nil => simp [maskFilter]
  | cons b0 bs ih =>
    cases l with
    | nil => simp [maskFilter]
    | cons y l =>
      rw [maskFilter_cons]
      by_cases hb : b0 = b
      · rw [if_pos hb]; exact List.Sublist.cons₂ y (ih l)
      · rw [if_neg hb]; exact List.Sublist.cons y (ih l)

theorem maskFilter_length_eq (b : Bool) (bs : List Bool) (l1 : List α) (l2 : List β)
    (hlen : l1.length = l2.length) :
    (maskFilter b bs l1).length = (maskFilter b bs l2).length := by
  induction bs generalizing l1 l2 with
  | nil => simp [maskFilter]
  | cons b0 bs ih =>
    cases l1 with
    | nil =>
      cases l2 with
      | nil => rfl
      | cons y l2 => simp at hlen
    | cons x l1 =>
      cases l2 with
      | nil => simp at hlen
      | cons y l2 =>
        simp only [List.length_cons, Nat.succ.injEq] at hlen
        rw [maskFilter_cons, maskFilter_cons]
        by_cases hb : b0 = b
        · simp [if_pos hb, ih l1 l2 hlen]
        · simp [if_neg hb, ih l1 l2 hlen]

/-- Mask-filtering two aligned lists and zipping commutes with zipping
first. -/
theorem maskFilter_zip (b : Bool) (bs : List Bool) (l1 : List α) (l2 : List β)
    (hlen : l1.length = l2.length) :
    (maskFilter b bs l1).zip (maskFilter b bs l2) = maskFilter b bs (l1.zip l2) := by
  induction bs generalizing l1 l2 with
  | nil => simp [maskFilter]
  | cons b0 bs ih =>
    cases l1 with
    | nil => simp [maskFilter]
    | cons x l1 =>
      cases l2 with
      | nil => simp at hlen
      | cons y l2 =>
        simp only [List.length_cons, Nat.succ.injEq] at hlen
        rw [List.zip_cons_cons, maskFilter_cons, maskFilter_cons, maskFilter_cons]
        by_cases hb : b0 = b
        · rw [if_pos hb, if_pos hb, if_pos hb, List.zip_cons_cons, ih l1 l2 hlen]
        · rw [if_neg hb, if_neg hb, if_neg hb, ih l1 l2 hlen]

theorem sublist_flatten_of_sublist (l1 l2 : List (List α))
    (h : List.Sublist l1 l2) : List.Sublist l1.flatten l2.flatten := by
  induction h with
  | slnil => exact List.Sublist.refl _
  | cons a _ ih =>
    simp only [List.flatten_cons]
    exact ih.trans (List.sublist_append_right a _)
  | cons₂ a _ ih =>
    simp only [List.flatten_cons]
    exact List.Sublist.append (List.Sublist.refl a) ih

theorem outBindersJoin_sublist (l1 l2 : List Instruction)
    (h : List.Sublist l1 l2) :
    List.Sublist (outBindersJoin l1) (outBindersJoin l2) :=
  sublist_flatten_of_sublist _ _ (List.Sublist.map Instruction.out_binders h)

/-- Transport a successful read to any larger environment. -/
theorem readAtom_mono (env env' : VEnv) (a : Atom) (t : Tensor)
    (hmono : ∀ v u, env v = some u → env' v = some u)
    (h : readAtom env a = .ok t) : readAtom env' a = .ok t := by
  cases a with
  | var v =>
    simp only [readAtom] at h ⊢
    cases hv : env v with
    | none => rw [hv] at h; exact absurd h (by simp)
    | some u =>
      rw [hv] at h
      rw [hmono v u hv]
      exact h
  | lit u => exact h

theorem mapExcept_readAtom_mono (env env' : VEnv) (l : List Atom) (r : List Tensor)
    (hmono : ∀ v u, env v = some u → env' v = some u)
    (h : mapExcept (readAtom env) l = .ok r) :
    mapExcept (readAtom env') l = .ok r := by
  rw [mapExcept_ok_iff_forall2] at h ⊢
  exact List.Forall₂.imp (fun a t ha => readAtom_mono env env' a t hmono ha) h

/-- A successful sequence of writes preserves every existing binding. -/
theorem writeMany_mono (vs : List Var) (ts : List Tensor) (env env' : VEnv)
    (hlen : vs.length ≤ ts.length) (h : writeMany env vs ts = .ok env') :
    ∀ v u, env v = some u → env' v = some u := by
  obtain ⟨-, hfresh, huntouched, -⟩ := writeMany_ok_elim vs ts env env' hlen h
  intro v u hv
  have hnot : v ∉ vs := fun hm => by rw [hfresh v hm] at hv; exact absurd hv (by simp)
  rw [huntouched v hnot]
  exact hv

/-- The facts a successful instruction run establishes: existing bindings
survive, the binders written along the way are globally distinct and were
all fresh at the start, and the final domain is the start domain plus
exactly those binders. -/
theorem runInstrs_ok_facts (instrs : List Instruction) (env env' : VEnv)
    (harity : ∀ i ∈ instrs, ∀ vs os, i.op.eval vs = some os →
      os.length = i.out_binders.length)
    (h : runInstrs env instrs = .ok env') :
    (∀ v u, env v = some u → env' v = some u) ∧
    (outBindersJoin instrs).Nodup ∧
    (∀ v ∈ outBindersJoin instrs, env v = none) ∧
    (∀ v, (env' v).isSome ↔ ((env v).isSome ∨ v ∈ outBindersJoin instrs)) := by
  induction instrs generalizing env with
  | nil =>
    simp only [runInstrs, Except.ok.injEq] at h
    subst h
    exact ⟨fun v u hv => hv, by simp [outBindersJoin], by simp [outBindersJoin],
      fun v => by simp [outBindersJoin]⟩
  | cons i rest ih =>
    simp only [runInstrs] at h
    obtain ⟨vals, hvals, h⟩ := bindE_eq_ok _ _ _ h
    obtain ⟨os, hos, h⟩ := bindE_eq_ok _ _ _ h
    obtain ⟨env1, henv1, h⟩ := bindE_eq_ok _ _ _ h
    have hoslen : os.length = i.out_binders.length :=
      harity i (by simp) vals os (evalE_ok_elim _ _ _ hos)
    obtain ⟨hnd, hfreshW, huntouched, hidx⟩ :=
      writeMany_ok_elim i.out_binders os env env1 (by omega) henv1
    obtain ⟨hmono', hnd', hfresh', hdom'⟩ :=
      ih env1 (fun j hj => harity j (by simp [hj])) h
    have hmono1 : ∀ v u, env v = some u → env1 v = some u :=
      writeMany_mono i.out_binders os env env1 (by omega) henv1
    have hdom1 : ∀ v, (env1 v).isSome ↔ ((env v).isSome ∨ v ∈ i.out_binders) := by
      intro v
      by_cases hv : v ∈ i.out_binders
      · obtain ⟨k, hk, rfl⟩ := List.getElem_of_mem hv
        rw [hidx k hk (by omega)]
        simp [hv]
      · rw [huntouched v hv]
        simp [hv]
    refine ⟨?_, ?_, ?_, ?_⟩
    · intro v u hv
      exact hmono' v u (hmono1 v u hv)
    · rw [outBindersJoin_cons, List.nodup_append]
      refine ⟨hnd, hnd', ?_⟩
      intro v hv1 hv2
      have h1 : (env1 v).isSome := by
        obtain ⟨k, hk, rfl⟩ := List.getElem_of_mem hv1
        rw [hidx k hk (by omega)]
        rfl
      rw [hfresh' v hv2] at h1
      exact absurd h1 (by simp)
    · intro v hv
      rw [outBindersJoin_cons, List.mem_append] at hv
      rcases hv with hv | hv
      · exact hfreshW v hv
      · cases he : env v with
        | none => rfl
        | some u =>
          have h2 := hmono1 v u he
          rw [hfresh' v hv] at h2
          exact absurd h2 (by simp)
    · intro v
      rw [hdom' v, hdom1 v, outBindersJoin_cons]
      simp [or_assoc]

/-- What the final environment of a successful run knows about one of its
instructions: its inputs read back the values it consumed, the eval kernel
succeeded on them, and each output binder holds the produced value. -/
def GoodInstr (Ef : VEnv) (i : Instruction) : Prop :=
  ∃ vals os, mapExcept (readAtom Ef) i.inputs = .ok vals ∧
    i.op.eval vals = some os ∧ os.length = i.out_binders.length ∧
    ∀ k, (hk1 : k < i.out_binders.length) → (hk2 : k < os.length) →
      Ef i.out_binders[k] = some os[k]

theorem runInstrs_good (instrs : List Instruction) (env env' : VEnv)
    (harity : ∀ i ∈ instrs, ∀ vs os, i.op.eval vs = some os →
      os.length = i.out_binders.length)
    (h : runInstrs env instrs = .ok env') :
    ∀ i ∈ instrs, GoodInstr env' i := by
  induction instrs generalizing env with
  | nil => intro i hi; exact absurd hi (by simp)
  | cons i rest ih =>
    have hstep := h
    simp only [runInstrs] at hstep
    obtain ⟨vals, hvals, hstep⟩ := bindE_eq_ok _ _ _ hstep
    obtain ⟨os, hos, hstep⟩ := bindE_eq_ok _ _ _ hstep
    obtain ⟨env1, henv1, hstep⟩ := bindE_eq_ok _ _ _ hstep
    have heval := evalE_ok_elim _ _ _ hos
    have hoslen : os.length = i.out_binders.length := harity i (by simp) vals os heval
    obtain ⟨-, -, -, hidx⟩ :=
      writeMany_ok_elim i.out_binders os env env1 (by omega) henv1
    have hmono1 : ∀ v u, env v = some u → env1 v = some u :=
      writeMany_mono i.out_binders os env env1 (by omega) henv1
    obtain ⟨hmono', -, -, -⟩ :=
      runInstrs_ok_facts rest env1 env' (fun j hj => harity j (by simp [hj])) hstep
    intro j hj
    rcases List.mem_cons.1 hj with rfl | hj
    · refine ⟨vals, os, ?_, heval, hoslen, ?_⟩
      · exact mapExcept_readAtom_mono env env' j.inputs vals
          (fun v u hv => hmono' v u (hmono1 v u hv)) hvals
      · intro k hk1 hk2
        exact hmono' _ _ (hidx k hk1 hk2)
    · exact ih env1 (fun j' hj' => harity j' (by simp [hj'])) hstep j hj

/-- The dependency structure the unknown half of the split satisfies: each
instruction's Var inputs are available (residual, unknown input, or an
earlier unknown output), and each instruction is as the original run
recorded it. -/
def Chain2 (Ef : VEnv) (avail : Var → Prop) : List Instruction → Prop
  | [] => True
  | i :: rest => (∀ v ∈ varInputs i, avail v) ∧ GoodInstr Ef i ∧
      Chain2 Ef (fun v => avail v ∨ v ∈ i.out_binders) rest

theorem Chain2_mono (Ef : VEnv) (avail avail' : Var → Prop) (l : List Instruction)
    (himp : ∀ v, avail v → avail' v) (h : Chain2 Ef avail l) :
    Chain2 Ef avail' l := by
  induction l generalizing avail avail' with
  | nil => trivial
  | cons i rest ih =>
    obtain ⟨h1, h2, h3⟩ := h
    exact ⟨fun v hv => himp v (h1 v hv), h2,
      ih _ _ (fun v hv => hv.imp (himp v) id) h3⟩

theorem forall2_idx {R : α → β → Prop} {l : List α} {r : List β}
    (h : List.Forall₂ R l r) (k : Nat) (h1 : k < l.length) (h2 : k < r.length) :
    R l[k] r[k] := by
  induction h generalizing k with
  | nil => exact absurd h1 (by simp)
  | cons ha hl ih =>
    cases k with
    | zero => simpa using ha
    | succ k => simpa using ih k (by simpa using h1) (by simpa using h2)

/-- The Var residual candidates of one unknown instruction. -/
def resOf (unks_in : List Bool) (i : Instruction) : List Var :=
  (unks_in.zip i.inputs).filterMap (fun p =>
    match p.2 with
    | .var v => if p.1 then none else some v
    | .lit _ => none)

theorem splitLoop_cons_known (i : Instruction) (rest : List Instruction) (F : FEnv)
    (unks_in : List Bool)
    (h : mapOpt (flagRead F) i.inputs = some unks_in)
    (hany : unks_in.any id = false) :
    splitLoop (i :: rest) F =
      (splitLoop rest
          (flagWriteMany F i.out_binders (i.out_binders.map fun _ => false))).map
        (fun acc => (acc.1, i :: acc.2.1, acc.2.2.1, acc.2.2.2)) := by
  simp only [splitLoop]
  rw [h, Option.some_bind]
  simp only [partial_run_instruction, hany]
  rfl

theorem splitLoop_cons_unknown (i : Instruction) (rest : List Instruction) (F : FEnv)
    (unks_in : List Bool)
    (h : mapOpt (flagRead F) i.inputs = some unks_in)
    (hany : unks_in.any id = true) :
    splitLoop (i :: rest) F =
      (splitLoop rest
          (flagWriteMany F i.out_binders (i.out_binders.map fun _ => true))).map
        (fun acc => (acc.1, acc.2.1, i :: acc.2.2.1, resOf unks_in i ++ acc.2.2.2)) := by
  simp only [splitLoop]
  rw [h, Option.some_bind]
  simp only [partial_run_instruction, hany]
  rfl

/-- The flag reads of an instruction succeed whenever the value reads of
the original run did. -/
theorem mapOpt_flagRead_ok (F : FEnv) (E : VEnv) (l : List Atom) (vals : List Tensor)
    (hD : ∀ v, (F v).isSome ↔ (E v).isSome)
    (h : List.Forall₂ (fun a t => readAtom E a = .ok t) l vals) :
    ∃ unks, mapOpt (flagRead F) l = some unks ∧
      List.Forall₂ (fun a b => flagRead F a = some b) l unks := by
  induction h with
  | nil => exact ⟨[], rfl, List.Forall₂.nil⟩
  | cons ha hl ih =>
    obtain ⟨unks, hunks, hf2⟩ := ih
    rename_i a t l' vals'
    have hread : ∃ b, flagRead F a = some b := by
      cases a with
      | var v =>
        simp only [readAtom] at ha
        cases he : E v with
        | none => rw [he] at ha; exact absurd ha (by simp)
        | some u =>
          have : (F v).isSome := (hD v).2 (by simp [he])
          cases hf : F v with
          | none => rw [hf] at this; exact absurd this (by simp)
          | some b => exact ⟨b, by simp [flagRead, hf]⟩
      | lit u => exact ⟨false, rfl⟩
    obtain ⟨b, hb⟩ := hread
    refine ⟨b :: unks, ?_, List.Forall₂.cons hb hf2⟩
    simp only [mapOpt]
    rw [hb, Option.some_bind, hunks, Option.map_some']

/-- The invariant of the split: the flag environment mirrors the value
domain of the original run; the split succeeds; the collected known half
simulates the original run on the known fragment of the final environment;
the unknown half forms a dependency chain over residuals, unknown inputs,
and its own outputs. -/
theorem splitLoop_spec (instrs : List Instruction) (F : FEnv) (E Ef : VEnv)
    (hD : ∀ v, (F v).isSome ↔ (E v).isSome)
    (harity : ∀ i ∈ instrs, ∀ vs os, i.op.eval vs = some os →
      os.length = i.out_binders.length)
    (hrun : runInstrs E instrs = .ok Ef) :
    ∃ F' i1 i2 res, splitLoop instrs F = some (F', i1, i2, res) ∧
      (∀ v b, F v = some b → F' v = some b) ∧
      (∀ v, (F' v).isSome ↔ ((F v).isSome ∨ v ∈ outBindersJoin instrs)) ∧
      List.Sublist i1 instrs ∧ List.Sublist i2 instrs ∧
      (∀ v ∈ res, F' v = some false) ∧
      (∀ v ∈ outBindersJoin i1, F' v = some false) ∧
      (∀ v ∈ outBindersJoin i2, F' v = some true) ∧
      (∀ v ∈ outBindersJoin instrs, v ∈ outBindersJoin i1 ∨ v ∈ outBindersJoin i2) ∧
      (∀ env1, (∀ v, env1 v = if F v = some false then Ef v else none) →
        ∃ env1f, runInstrs env1 i1 = .ok env1f ∧
          (∀ v, env1f v = if F' v = some false then Ef v else none)) ∧
      Chain2 Ef (fun v => v ∈ res ∨ F v = some true) i2 := by
  induction instrs generalizing F E with
  | nil =>
    refine ⟨F, [], [], [], rfl, fun v b h => h, ?_, .slnil, .slnil,
      by simp, by simp [outBindersJoin], by simp [outBindersJoin],
      by simp [outBindersJoin],
      fun env1 h1 => ⟨env1, rfl, h1⟩, trivial⟩
    intro v
    simp [outBindersJoin]
  | cons i rest ih =>
    have hstep := hrun
    simp only [runInstrs] at hstep
    obtain ⟨vals, hvals, hstep⟩ := bindE_eq_ok _ _ _ hstep
    obtain ⟨os, hos, hstep⟩ := bindE_eq_ok _ _ _ hstep
    obtain ⟨E1, hE1, hstep⟩ := bindE_eq_ok _ _ _ hstep
    have heval := evalE_ok_elim _ _ _ hos
    have hoslen : os.length = i.out_binders.length := harity i (by simp) vals os heval
    obtain ⟨hndout, hfreshE, huntE, hidxE⟩ :=
      writeMany_ok_elim i.out_binders os E E1 (by omega) hE1
    have harity' : ∀ j ∈ rest, ∀ vs os, j.op.eval vs = some os →
        os.length = j.out_binders.length := fun j hj => harity j (by simp [hj])
    obtain ⟨hmonoR, -, -, -⟩ := runInstrs_ok_facts rest E1 Ef harity' hstep
    obtain ⟨hmonoFull, -, -, -⟩ := runInstrs_ok_facts (i :: rest) E Ef harity hrun
    have hvalsF2 := (mapExcept_ok_iff_forall2 _ _ _).1 hvals
    obtain ⟨unks_in, hunks, hunksF2⟩ := mapOpt_flagRead_ok F E i.inputs vals hD hvalsF2
    have hFout_none : ∀ v ∈ i.out_binders, F v = none := by
      intro v hv
      cases hf : F v with
      | none => rfl
      | some b =>
        have h1 : (E v).isSome := (hD v).1 (by simp [hf])
        rw [hfreshE v hv] at h1
        exact absurd h1 (by simp)
    have hEdom1 : ∀ v, (E1 v).isSome ↔ ((E v).isSome ∨ v ∈ i.out_binders) := by
      intro v
      by_cases hv : v ∈ i.out_binders
      · obtain ⟨k, hk, rfl⟩ := List.getElem_of_mem hv
        rw [hidxE k hk (by omega)]
        simp [hv]
      · rw [huntE v hv]
        simp [hv]
    have hinlen : i.inputs.length = vals.length := hvalsF2.length_eq
    have hinlen2 : i.inputs.length = unks_in.length := hunksF2.length_eq
    by_cases hany : unks_in.any id = true
    · -- the instruction has an unknown input: it goes whole to program2
      set F1 := flagWriteMany F i.out_binders (i.out_binders.map fun _ => true) with hF1def
      obtain ⟨hF1unt, hF1idx⟩ :=
        flagWriteMany_elim i.out_binders (i.out_binders.map fun _ => true) F hndout (by simp)
      rw [← hF1def] at hF1unt hF1idx
      have hF1out : ∀ v ∈ i.out_binders, F1 v = some true := by
        intro v hv
        obtain ⟨k, hk, rfl⟩ := List.getElem_of_mem hv
        have h2 := hF1idx k hk (by simpa using hk)
        rw [List.getElem_map] at h2
        exact h2
      have hFdom1 : ∀ v, (F1 v).isSome ↔ ((F v).isSome ∨ v ∈ i.out_binders) := by
        intro v
        by_cases hv : v ∈ i.out_binders
        · rw [hF1out v hv]
          simp [hv]
        · rw [hF1unt v hv]
          simp [hv]
      have hD1 : ∀ v, (F1 v).isSome ↔ (E1 v).isSome := by
        intro v
        rw [hFdom1 v, hEdom1 v, hD v]
      obtain ⟨F', i1, i2, res, hsl, hmono, hdom, hsub1, hsub2, hres, hout1, hout2,
        hjsplit, hsim, hchain⟩ := ih F1 E1 hD1 harity' hstep
      have hmonoF1 : ∀ v b, F v = some b → F1 v = some b := by
        intro v b hv
        have hvnot : v ∉ i.out_binders := fun hm => by
          rw [hFout_none v hm] at hv
          exact absurd hv (by simp)
        rw [hF1unt v hvnot]
        exact hv
      have hresH : ∀ v ∈ resOf unks_in i, F v = some false := by
        intro v hv
        simp only [resOf, List.mem_filterMap] at hv
        obtain ⟨⟨b, a⟩, hmem, hmatch⟩ := hv
        cases a with
        | lit t => exact absurd hmatch (by simp)
        | var w =>
          cases b with
          | true => exact absurd hmatch (by simp)
          | false =>
            have hwv : w = v := by simpa using hmatch
            obtain ⟨k, hk, hpair⟩ := List.getElem_of_mem hmem
            have hk1 : k < unks_in.length := by
              simp only [List.length_zip] at hk
              omega
            have hk2 : k < i.inputs.length := by
              simp only [List.length_zip] at hk
              omega
            rw [List.getElem_zip] at hpair
            have hu : unks_in[k] = false := congrArg Prod.fst hpair
            have hi : i.inputs[k] = .var w := congrArg Prod.snd hpair
            have h3 := forall2_idx hunksF2 k hk2 (by omega)
            rw [hi, hu] at h3
            rw [← hwv]
            exact h3
      refine ⟨F', i1, i :: i2, resOf unks_in i ++ res, ?_, ?_, ?_,
        List.Sublist.cons i hsub1, List.Sublist.cons₂ i hsub2, ?_, hout1, ?_, ?_, ?_, ?_⟩
      · rw [splitLoop_cons_unknown i rest F unks_in hunks hany, hsl, Option.map_some']
      · intro v b hv
        exact hmono v b (hmonoF1 v b hv)
      · intro v
        rw [hdom v, hFdom1 v, outBindersJoin_cons]
        simp [or_assoc]
      · intro v hv
        rcases List.mem_append.1 hv with hv | hv
        · exact hmono v false (hmonoF1 v false (hresH v hv))
        · exact hres v hv
      · intro v hv
        rw [outBindersJoin_cons, List.mem_append] at hv
        rcases hv with hv | hv
        · exact hmono v true (hF1out v hv)
        · exact hout2 v hv
      · intro v hv
        rw [outBindersJoin_cons, List.mem_append] at hv
        rcases hv with hv | hv
        · exact Or.inr (by rw [outBindersJoin_cons]; exact List.mem_append.2 (Or.inl hv))
        · rcases hjsplit v hv with h | h
          · exact Or.inl h
          · exact Or.inr (by rw [outBindersJoin_cons]; exact List.mem_append.2 (Or.inr h))
      · intro env1 hinv
        refine hsim env1 ?_
        intro v
        by_cases hv : v ∈ i.out_binders
        · rw [hF1out v hv, hinv v, hFout_none v hv]
          simp
        · rw [hF1unt v hv]
          exact hinv v
      · refine ⟨?_, runInstrs_good (i :: rest) E Ef harity hrun i (by simp), ?_⟩
        · intro v hv
          simp only [varInputs, atomVars, List.mem_filterMap] at hv
          obtain ⟨a, hmem, hmatch⟩ := hv
          cases a with
          | lit t => exact absurd hmatch (by simp)
          | var w =>
            have hwv : w = v := by simpa using hmatch
            obtain ⟨k, hk, hik⟩ := List.getElem_of_mem hmem
            have hflag := forall2_idx hunksF2 k hk (by omega)
            rw [hik] at hflag
            have hku : k < unks_in.length := by omega
            cases hu : unks_in[k] with
            | true =>
              rw [hu] at hflag
              rw [← hwv]
              exact Or.inr hflag
            | false =>
              refine Or.inl (List.mem_append.2 (Or.inl ?_))
              simp only [resOf, List.mem_filterMap]
              refine ⟨(false, .var w), ?_, by simp [hwv]⟩
              have hkz : k < (unks_in.zip i.inputs).length := by
                simp only [List.length_zip]
                omega
              have h4 : (unks_in.zip i.inputs)[k] = (false, .var w) := by
                rw [List.getElem_zip, hu, hik]
              rw [← h4]
              exact List.getElem_mem hkz
        · refine Chain2_mono Ef _ _ i2 ?_ hchain
          intro v hv
          rcases hv with hv | hv
          · exact Or.inl (Or.inl (List.mem_append.2 (Or.inr hv)))
          · by_cases hvo : v ∈ i.out_binders
            · exact Or.inr hvo
            · rw [hF1unt v hvo] at hv
              exact Or.inl (Or.inr hv)
    · -- all inputs known: the instruction goes whole to program1
      have hanyF : unks_in.any id = false := by
        cases h : unks_in.any id with
        | false => rfl
        | true => exact absurd h hany
      have hallF : ∀ b ∈ unks_in, b = false := by
        intro b hb
        have := List.any_eq_false.1 hanyF b hb
        simpa using this
      set F1 := flagWriteMany F i.out_binders (i.out_binders.map fun _ => false) with hF1def
      obtain ⟨hF1unt, hF1idx⟩ :=
        flagWriteMany_elim i.out_binders (i.out_binders.map fun _ => false) F hndout (by simp)
      rw [← hF1def] at hF1unt hF1idx
      have hF1out : ∀ v ∈ i.out_binders, F1 v = some false := by
        intro v hv
        obtain ⟨k, hk, rfl⟩ := List.getElem_of_mem hv
        have h2 := hF1idx k hk (by simpa using hk)
        rw [List.getElem_map] at h2
        exact h2
      have hFdom1 : ∀ v, (F1 v).isSome ↔ ((F v).isSome ∨ v ∈ i.out_binders) := by
        intro v
        by_cases hv : v ∈ i.out_binders
        · rw [hF1out v hv]
          simp [hv]
        · rw [hF1unt v hv]
          simp [hv]
      have hD1 : ∀ v, (F1 v).isSome ↔ (E1 v).isSome := by
        intro v
        rw [hFdom1 v, hEdom1 v, hD v]
      obtain ⟨F', i1, i2, res, hsl, hmono, hdom, hsub1, hsub2, hres, hout1, hout2,
        hjsplit, hsim, hchain⟩ := ih F1 E1 hD1 harity' hstep
      have hmonoF1 : ∀ v b, F v = some b → F1 v = some b := by
        intro v b hv
        have hvnot : v ∉ i.out_binders := fun hm => by
          rw [hFout_none v hm] at hv
          exact absurd hv (by simp)
        rw [hF1unt v hvnot]
        exact hv
      have hinflags : ∀ k, (hk : k < i.inputs.length) → ∀ v, i.inputs[k] = .var v →
          F v = some false := by
        intro k hk v hik
        have hflag := forall2_idx hunksF2 k hk (by omega)
        rw [hik, hallF _ (List.getElem_mem (by omega))] at hflag
        exact hflag
      refine ⟨F', i :: i1, i2, res, ?_, ?_, ?_,
        List.Sublist.cons₂ i hsub1, List.Sublist.cons i hsub2, hres, ?_, hout2, ?_, ?_, ?_⟩
      · rw [splitLoop_cons_known i rest F unks_in hunks hanyF, hsl, Option.map_some']
      · intro v b hv
        exact hmono v b (hmonoF1 v b hv)
      · intro v
        rw [hdom v, hFdom1 v, outBindersJoin_cons]
        simp [or_assoc]
      · intro v hv
        rw [outBindersJoin_cons, List.mem_append] at hv
        rcases hv with hv | hv
        · exact hmono v false (hF1out v hv)
        · exact hout1 v hv
      · intro v hv
        rw [outBindersJoin_cons, List.mem_append] at hv
        rcases hv with hv | hv
        · exact Or.inl (by rw [outBindersJoin_cons]; exact List.mem_append.2 (Or.inl hv))
        · rcases hjsplit v hv with h | h
          · exact Or.inl (by rw [outBindersJoin_cons]; exact List.mem_append.2 (Or.inr h))
          · exact Or.inr h
      · intro env1 hinv
        have hreads1 : mapExcept (readAtom env1) i.inputs = .ok vals := by
          rw [mapExcept_ok_iff_forall2, List.forall₂_iff_get]
          refine ⟨hinlen, ?_⟩
          intro k h1 h2
          have hrd := forall2_idx hvalsF2 k h1 h2
          cases ha : i.inputs[k] with
          | lit t =>
            rw [ha] at hrd
            simp only [List.get_eq_getElem, ha]
            exact hrd
          | var v =>
            rw [ha] at hrd
            simp only [readAtom] at hrd
            have hEv : E v = some vals[k] := by
              cases he : E v with
              | none => rw [he] at hrd; exact absurd hrd (by simp)
              | some u => rw [he] at hrd; simpa using hrd
            have hflag : F v = some false := hinflags k h1 v ha
            simp only [List.get_eq_getElem, ha, readAtom]
            rw [hinv v, if_pos (by rw [hflag]), hmonoFull v _ hEv]
        have hfresh1 : ∀ v ∈ i.out_binders, env1 v = none := by
          intro v hv
          rw [hinv v, hFout_none v hv]
          simp
        obtain ⟨env1m, henv1m⟩ := writeMany_ok_of i.out_binders os env1 hndout hfresh1
        obtain ⟨-, -, hunt1, hidx1⟩ :=
          writeMany_ok_elim i.out_binders os env1 env1m (by omega) henv1m
        have hinvm : ∀ v, env1m v = if F1 v = some false then Ef v else none := by
          intro v
          by_cases hv : v ∈ i.out_binders
          · obtain ⟨k, hk, rfl⟩ := List.getElem_of_mem hv
            rw [hidx1 k hk (by omega), hF1out _ hv, if_pos rfl,
              hmonoR _ _ (hidxE k hk (by omega))]
          · rw [hunt1 v hv, hF1unt v hv]
            exact hinv v
        obtain ⟨env1f, hrunrest, hinvf⟩ := hsim env1m hinvm
        refine ⟨env1f, ?_, hinvf⟩
        simp only [runInstrs]
        rw [hreads1, bindE_ok, evalE_some _ _ _ heval, bindE_ok, henv1m, bindE_ok]
        exact hrunrest
      · refine Chain2_mono Ef _ _ i2 ?_ hchain
        intro v hv
        rcases hv with hv | hv
        · exact Or.inl hv
        · by_cases hvo : v ∈ i.out_binders
          · rw [hF1out v hvo] at hv
            exact absurd hv (by simp)
          · rw [hF1unt v hvo] at hv
            exact Or.inr hv

/-- Reads only depend on the environment at the Vars actually read. -/
theorem mapExcept_readAtom_congr (env env' : VEnv) (l : List Atom) (r : List Tensor)
    (hagree : ∀ v ∈ atomVars l, env' v = env v)
    (h : mapExcept (readAtom env) l = .ok r) :
    mapExcept (readAtom env') l = .ok r := by
  induction l generalizing r with
  | nil => simpa using h
  | cons a l ihc =>
    obtain ⟨b, bs, ha, hl, rfl⟩ := mapExcept_cons_elim _ _ _ _ h
    refine mapExcept_cons_ok _ _ _ _ _ ?_
      (ihc bs (fun v hv => hagree v ((atomVars_cons a l v).2 (Or.inr hv))) hl)
    cases a with
    | lit t => exact ha
    | var v =>
      have := hagree v ((atomVars_cons (Atom.var v) l v).2 (Or.inl rfl))
      simp only [readAtom] at ha ⊢
      rw [this]
      exact ha

/-- Running a dependency chain from an environment that holds the final
values of its available Vars succeeds and reproduces the final values of
everything it touches. -/
theorem runInstrs_of_chain (instrs : List Instruction) (Ef : VEnv)
    (avail : Var → Prop) (E2 : VEnv)
    (hchain : Chain2 Ef avail instrs)
    (hE2pos : ∀ v, avail v → E2 v = Ef v)
    (hE2neg : ∀ v, ¬ avail v → E2 v = none)
    (hnd : (outBindersJoin instrs).Nodup)
    (hdisj : ∀ v ∈ outBindersJoin instrs, ¬ avail v) :
    ∃ E2f, runInstrs E2 instrs = .ok E2f ∧
      (∀ v, avail v → E2f v = Ef v) ∧
      (∀ v ∈ outBindersJoin instrs, E2f v = Ef v) := by
  induction instrs generalizing avail E2 with
  | nil =>
    refine ⟨E2, rfl, hE2pos, ?_⟩
    intro v hv
    simp [outBindersJoin] at hv
  | cons i rest ih =>
    obtain ⟨hin, ⟨vals, os, hreads, heval, hoslen, hidx⟩, hrest⟩ := hchain
    rw [outBindersJoin_cons, List.nodup_append] at hnd
    obtain ⟨hnd1, hnd2, hnddisj⟩ := hnd
    have hdisj1 : ∀ v ∈ i.out_binders, ¬ avail v := fun v hv =>
      hdisj v (by rw [outBindersJoin_cons]; exact List.mem_append.2 (Or.inl hv))
    have hdisj2 : ∀ v ∈ outBindersJoin rest, ¬ avail v := fun v hv =>
      hdisj v (by rw [outBindersJoin_cons]; exact List.mem_append.2 (Or.inr hv))
    -- reads at E2 agree with the recorded reads at Ef
    have hreads2 : mapExcept (readAtom E2) i.inputs = .ok vals := by
      refine mapExcept_readAtom_congr Ef E2 i.inputs vals ?_ hreads
      intro v hv
      exact hE2pos v (hin v hv)
    -- the outputs are fresh in E2
    have hfresh2 : ∀ v ∈ i.out_binders, E2 v = none := fun v hv =>
      hE2neg v (hdisj1 v hv)
    obtain ⟨E2m, hE2m⟩ := writeMany_ok_of i.out_binders os E2 hnd1 hfresh2
    obtain ⟨-, -, hunt2, hidx2⟩ :=
      writeMany_ok_elim i.out_binders os E2 E2m (by omega) hE2m
    -- the new state matches Ef on avail ∪ out_binders
    have hpos' : ∀ v, (avail v ∨ v ∈ i.out_binders) → E2m v = Ef v := by
      intro v hv
      by_cases hvo : v ∈ i.out_binders
      · obtain ⟨k, hk, rfl⟩ := List.getElem_of_mem hvo
        rw [hidx2 k hk (by omega), hidx k hk (by omega)]
      · rcases hv with hv | hv
        · rw [hunt2 v hvo]
          exact hE2pos v hv
        · exact absurd hv hvo
    have hneg' : ∀ v, ¬ (avail v ∨ v ∈ i.out_binders) → E2m v = none := by
      intro v hv
      push_neg at hv
      rw [hunt2 v hv.2]
      exact hE2neg v hv.1
    have hdisj' : ∀ v ∈ outBindersJoin rest, ¬ (avail v ∨ v ∈ i.out_binders) := by
      intro v hv h2
      rcases h2 with h2 | h2
      · exact hdisj2 v hv h2
      · exact hnddisj h2 hv
    obtain ⟨E2f, hrunrest, hposf, houtf⟩ := ih _ E2m hrest hpos' hneg' hnd2 hdisj'
    refine ⟨E2f, ?_, fun v hv => hposf v (Or.inl hv), ?_⟩
    · simp only [runInstrs]
      rw [hreads2, bindE_ok, evalE_some _ _ _ heval, bindE_ok, hE2m, bindE_ok]
      exact hrunrest
    · intro v hv
      rw [outBindersJoin_cons, List.mem_append] at hv
      rcases hv with hv | hv
      · exact hposf v (Or.inr hv)
      · exact houtf v hv

theorem maskFilter_forall2 {R : α → β → Prop} (b : Bool) (bs : List Bool)
    {l : List α} {r : List β} (h : List.Forall₂ R l r) :
    List.Forall₂ R (maskFilter b bs l) (maskFilter b bs r) := by
  induction bs generalizing l r with
  | nil =>
    cases h with
    | nil => exact List.Forall₂.nil
    | cons ha hl => exact List.Forall₂.nil
  | cons b0 bs ih =>
    cases h with
    | nil => exact List.Forall₂.nil
    | cons ha hl =>
      rw [maskFilter_cons, maskFilter_cons]
      by_cases hb : b0 = b
      · rw [if_pos hb, if_pos hb]
        exact List.Forall₂.cons ha (ih hl)
      · rw [if_neg hb, if_neg hb]
        exact ih hl

theorem forall2_of_idx {R : α → β → Prop} (l : List α) (r : List β)
    (hlen : l.length = r.length)
    (h : ∀ k, (h1 : k < l.length) → (h2 : k < r.length) → R l[k] r[k]) :
    List.Forall₂ R l r := by
  induction l generalizing r with
  | nil =>
    cases r with
    | nil => exact List.Forall₂.nil
    | cons b r => simp at hlen
  | cons a l ih =>
    cases r with
    | nil => simp at hlen
    | cons b r =>
      refine List.Forall₂.cons (h 0 (by simp) (by simp)) (ih r (by simpa using hlen) ?_)
      intro k h1 h2
      simpa using h (k + 1) (by simpa using h1) (by simpa using h2)

theorem atomVars_map_var (l : List Var) : atomVars (l.map Atom.var) = l := by
  induction l with
  | nil => rfl
  | cons v l ih =>
    show v :: atomVars (l.map Atom.var) = v :: l
    rw [ih]

/-- Writing a concatenation is writing the parts in sequence. -/
theorem writeMany_append (vs1 vs2 : List Var) (ts1 ts2 : List Tensor) (env : VEnv)
    (hlen : vs1.length = ts1.length) :
    writeMany env (vs1 ++ vs2) (ts1 ++ ts2) =
      bindE (writeMany env vs1 ts1) fun env' => writeMany env' vs2 ts2 := by
  induction vs1 generalizing ts1 env with
  | nil =>
    cases ts1 with
    | nil => rfl
    | cons t ts => simp at hlen
  | cons v vs ih =>
    cases ts1 with
    | nil => simp at hlen
    | cons t ts =>
      simp only [List.cons_append, writeMany]
      cases hw : writeVar env v t with
      | error e => rw [bindE_error, bindE_error, bindE_error]
      | ok env' =>
        rw [bindE_ok, bindE_ok]
        exact ih ts env' (by simpa using hlen)

/-- C1: partial evaluation is correct.  On a Program whose run on `args`
succeeds, `partial_run_program` with an input unknown-mask splits it into
program1 and program2 such that program1 on the known inputs yields the
known outputs followed by `num_res` residual values, program2 on the
residual values followed by the unknown inputs yields the unknown outputs,
and merging the two output lists by the returned out-unknown flags gives
exactly the original outputs, element for element.  `harity` is the spec
4.1 operator contract (an eval kernel returns one value per declared
output binder); the source's trailing `typecheck_partial_run_program`
sanity call can only raise, never alter the returned split. -/
theorem partial_run_program_spec (p : Program) (m : List Bool)
    (args outs : List Tensor)
    (hm : m.length = p.in_binders.length)
    (ha : args.length = p.in_binders.length)
    (harity : ∀ i ∈ p.instructions, ∀ vs os, i.op.eval vs = some os →
      os.length = i.out_binders.length)
    (hrun : run_program p args = .ok outs) :
    ∃ p1 p2 outU nres, partial_run_program p m = some (p1, p2, outU, nres) ∧
      ∃ outs1 resvals outs2,
        run_program p1 (partition_list m args).1 = .ok (outs1 ++ resvals) ∧
        resvals.length = nres ∧
        run_program p2 (resvals ++ (partition_list m args).2) = .ok outs2 ∧
        merge_lists outU outs1 outs2 = some outs := by
  simp only [run_program] at hrun
  obtain ⟨E0, hE0, hrun⟩ := bindE_eq_ok _ _ _ hrun
  obtain ⟨Ef, hEf, hread_outs⟩ := bindE_eq_ok _ _ _ hrun
  obtain ⟨hndin, -, huntE0, hidxE0⟩ :=
    writeMany_ok_elim p.in_binders args emptyVEnv E0 (by omega) hE0
  have hdomE0 : ∀ v, (E0 v).isSome ↔ v ∈ p.in_binders := by
    intro v
    by_cases hv : v ∈ p.in_binders
    · obtain ⟨k, hk, rfl⟩ := List.getElem_of_mem hv
      rw [hidxE0 k hk (by omega)]
      simp [hv]
    · rw [huntE0 v hv]
      simp [emptyVEnv, hv]
  set F0 := flagWriteMany (fun _ => none) p.in_binders m with hF0def
  obtain ⟨hF0unt, hF0idx⟩ :=
    flagWriteMany_elim p.in_binders m (fun _ => none) hndin (by omega)
  rw [← hF0def] at hF0unt hF0idx
  have hdomF0 : ∀ v, (F0 v).isSome ↔ v ∈ p.in_binders := by
    intro v
    by_cases hv : v ∈ p.in_binders
    · obtain ⟨k, hk, rfl⟩ := List.getElem_of_mem hv
      rw [hF0idx k hk (by omega)]
      simp [hv]
    · rw [hF0unt v hv]
      simp [hv]
  have hD0 : ∀ v, (F0 v).isSome ↔ (E0 v).isSome := by
    intro v
    rw [hdomF0 v, hdomE0 v]
  obtain ⟨hmonoFull, hndJ, hfreshJ, hdomEf⟩ :=
    runInstrs_ok_facts p.instructions E0 Ef harity hEf
  obtain ⟨F', i1, i2, res, hsl, hmono, hdom, hsub1, hsub2, hres, hout1, hout2,
    hjsplit, hsim, hchain⟩ := splitLoop_spec p.instructions F0 E0 Ef hD0 harity hEf
  have hDf : ∀ v, (F' v).isSome ↔ (Ef v).isSome := by
    intro v
    rw [hdom v, hD0 v, hdomEf v]
  have houtsF2 := (mapExcept_ok_iff_forall2 _ _ _).1 hread_outs
  obtain ⟨outU, houtU, houtUF2⟩ := mapOpt_flagRead_ok F' Ef p.outs outs hDf houtsF2
  have hlenU : outU.length = p.outs.length := houtUF2.length_eq.symm
  have hlenouts : outs.length = p.outs.length := houtsF2.length_eq.symm
  have hlenUouts : outU.length = outs.length := by omega
  have hFmask : ∀ (b : Bool) v, v ∈ maskFilter b m p.in_binders → F0 v = some b := by
    intro b v hv
    rw [mem_maskFilter_iff b m p.in_binders v hm] at hv
    obtain ⟨k, hk, hk2, hmk, hvk⟩ := hv
    rw [← hvk, hF0idx k hk hk2, hmk]
  have hFmaskrev : ∀ (b : Bool) v, F0 v = some b →
      v ∈ maskFilter b m p.in_binders := by
    intro b v hv
    have hvin : v ∈ p.in_binders := (hdomF0 v).1 (by simp [hv])
    obtain ⟨k, hk, rfl⟩ := List.getElem_of_mem hvin
    have hk2 : k < m.length := by omega
    rw [hF0idx k hk hk2] at hv
    have hmk : m[k] = b := by simpa using hv
    exact (mem_maskFilter_iff b m p.in_binders _ hm).2 ⟨k, hk, hk2, hmk, rfl⟩
  have hEfin : List.Forall₂ (fun v t => Ef v = some t) p.in_binders args :=
    forall2_of_idx p.in_binders args ha.symm
      (fun k h1 h2 => hmonoFull _ _ (hidxE0 k h1 h2))
  have hEfmask : ∀ b : Bool, List.Forall₂ (fun v t => Ef v = some t)
      (maskFilter b m p.in_binders) (maskFilter b m args) :=
    fun b => maskFilter_forall2 b m hEfin
  have hlenargs1 : (maskFilter false m p.in_binders).length
      = (maskFilter false m args).length :=
    maskFilter_length_eq false m p.in_binders args (by omega)
  have hlenargs2 : (maskFilter true m p.in_binders).length
      = (maskFilter true m args).length :=
    maskFilter_length_eq true m p.in_binders args (by omega)
  -- program1 on the known inputs
  obtain ⟨env10, henv10⟩ := writeMany_ok_of (maskFilter false m p.in_binders)
    (maskFilter false m args) emptyVEnv ((maskFilter_sublist _ _ _).nodup hndin)
    (fun v _ => rfl)
  obtain ⟨-, -, hunt10, hidx10⟩ := writeMany_ok_elim (maskFilter false m p.in_binders)
    (maskFilter false m args) emptyVEnv env10 (by omega) henv10
  have hinv0 : ∀ v, env10 v = if F0 v = some false then Ef v else none := by
    intro v
    by_cases hv : v ∈ maskFilter false m p.in_binders
    · obtain ⟨j, hj, rfl⟩ := List.getElem_of_mem hv
      rw [hidx10 j hj (by omega), if_pos (hFmask false _ (List.getElem_mem hj)),
        forall2_idx (hEfmask false) j hj (by omega)]
    · have hnotf : ¬ (F0 v = some false) := fun hf => hv (hFmaskrev false v hf)
      rw [hunt10 v hv, if_neg hnotf]
      rfl
  obtain ⟨env1f, hrun1, hinvf⟩ := hsim env10 hinv0
  have houts1base : mapExcept (readAtom Ef) (maskFilter false outU p.outs)
      = .ok (maskFilter false outU outs) :=
    (mapExcept_ok_iff_forall2 _ _ _).2 (maskFilter_forall2 false outU houtsF2)
  have hflagouts : ∀ (b : Bool) a, a ∈ maskFilter b outU p.outs →
      flagRead F' a = some b := by
    intro b a hva
    rw [mem_maskFilter_iff b outU p.outs a hlenU] at hva
    obtain ⟨k, hk, hk2, hbk, hak⟩ := hva
    have h2 := forall2_idx houtUF2 k hk (by omega)
    rw [hak, hbk] at h2
    exact h2
  have houts1reads : mapExcept (readAtom env1f) (maskFilter false outU p.outs)
      = .ok (maskFilter false outU outs) := by
    refine mapExcept_readAtom_congr Ef env1f _ _ ?_ houts1base
    intro v hv
    simp only [atomVars, List.mem_filterMap] at hv
    obtain ⟨a, hmem, hmatch⟩ := hv
    cases a with
    | lit t => exact absurd hmatch (by simp)
    | var w =>
      have hwv : w = v := by simpa using hmatch
      rw [← hwv]
      have hflag : F' w = some false := hflagouts false _ hmem
      rw [hinvf w, if_pos hflag]
  have hresflags : ∀ v ∈ res.dedup, F' v = some false := fun v hv =>
    hres v (List.mem_dedup.1 hv)
  obtain ⟨resvals, hresreads, hreslen0⟩ :=
    mapExcept_readAtom_ok env1f (res.dedup.map Atom.var) (by
      intro v hv
      rw [atomVars_map_var] at hv
      rw [hinvf v, if_pos (hresflags v hv)]
      exact (hDf v).1 (by simp [hresflags v hv]))
  have hreslen : resvals.length = res.dedup.length := by simpa using hreslen0
  have hresvalsF2 : List.Forall₂ (fun v t => Ef v = some t) res.dedup resvals := by
    have hF2 := (mapExcept_ok_iff_forall2 _ _ _).1 hresreads
    refine forall2_of_idx _ _ (by omega) ?_
    intro j h1 h2
    have hj := forall2_idx hF2 j (by simpa using h1) h2
    rw [List.getElem_map] at hj
    simp only [readAtom] at hj
    have henv : env1f (res.dedup[j]) = some (resvals[j]) := by
      cases he : env1f (res.dedup[j]) with
      | none => rw [he] at hj; exact absurd hj (by simp)
      | some t => rw [he] at hj; simpa using hj
    have hmem2 : res.dedup[j] ∈ res.dedup := List.getElem_mem h1
    have h3 := hinvf (res.dedup[j])
    rw [if_pos (hresflags _ hmem2)] at h3
    rw [← h3]
    exact henv
  have hpart_in := partition_list_eq_maskFilter m p.in_binders hm
  have hpart_args := partition_list_eq_maskFilter m args (by omega)
  have hpart_outs := partition_list_eq_maskFilter outU p.outs hlenU
  have hpart_outsv := partition_list_eq_maskFilter outU outs hlenUouts
  have hrun1full : run_program
      ⟨(partition_list m p.in_binders).1, i1,
        (partition_list outU p.outs).1 ++ res.dedup.map Atom.var, 0,
        p.name ++ "_partial1"⟩ (partition_list m args).1
      = .ok (maskFilter false outU outs ++ resvals) := by
    simp only [run_program, hpart_in, hpart_args, hpart_outs]
    rw [henv10, bindE_ok, hrun1, bindE_ok]
    exact mapExcept_append_ok _ _ _ _ _ houts1reads hresreads
  -- program2 on the residuals and the unknown inputs
  have hndres : res.dedup.Nodup := List.nodup_dedup res
  have hndins2 : (maskFilter true m p.in_binders).Nodup :=
    (maskFilter_sublist _ _ _).nodup hndin
  have hdisj12 : ∀ v ∈ res.dedup, v ∉ maskFilter true m p.in_binders := by
    intro v hv hv2
    have h1 : F' v = some false := hresflags v hv
    have h2 := hmono v true (hFmask true v hv2)
    rw [h1] at h2
    exact absurd h2 (by simp)
  obtain ⟨Er, hEr⟩ := writeMany_ok_of res.dedup resvals emptyVEnv hndres (fun v _ => rfl)
  obtain ⟨-, -, huntEr, hidxEr⟩ :=
    writeMany_ok_elim res.dedup resvals emptyVEnv Er (by omega) hEr
  obtain ⟨E20, hE20⟩ := writeMany_ok_of (maskFilter true m p.in_binders)
    (maskFilter true m args) Er hndins2 (by
      intro v hv
      rw [huntEr v (fun hmem => hdisj12 v hmem hv)]
      rfl)
  obtain ⟨-, -, huntE2, hidxE2⟩ := writeMany_ok_elim (maskFilter true m p.in_binders)
    (maskFilter true m args) Er E20 (by omega) hE20
  have hE2pos : ∀ v, (v ∈ res ∨ F0 v = some true) → E20 v = Ef v := by
    intro v hv
    rcases hv with hv | hv
    · have hvd : v ∈ res.dedup := List.mem_dedup.2 hv
      obtain ⟨j, hj, rfl⟩ := List.getElem_of_mem hvd
      have hnotin2 : res.dedup[j] ∉ maskFilter true m p.in_binders :=
        hdisj12 _ (List.getElem_mem hj)
      rw [huntE2 _ hnotin2, hidxEr j hj (by omega), forall2_idx hresvalsF2 j hj (by omega)]
    · have hvin2 := hFmaskrev true v hv
      obtain ⟨j, hj, hvj⟩ := List.getElem_of_mem hvin2
      rw [← hvj, hidxE2 j hj (by omega), forall2_idx (hEfmask true) j hj (by omega)]
  have hE2neg : ∀ v, ¬ (v ∈ res ∨ F0 v = some true) → E20 v = none := by
    intro v hv
    push_neg at hv
    have hnd2 : v ∉ res.dedup := fun hmem => hv.1 (List.mem_dedup.1 hmem)
    have hni2 : v ∉ maskFilter true m p.in_binders := fun hmem =>
      hv.2 (hFmask true v hmem)
    rw [huntE2 v hni2, huntEr v hnd2]
    rfl
  have hndJ2 : (outBindersJoin i2).Nodup :=
    (outBindersJoin_sublist i2 p.instructions hsub2).nodup hndJ
  have hdisjJ2 : ∀ v ∈ outBindersJoin i2, ¬ (v ∈ res ∨ F0 v = some true) := by
    intro v hv h2
    rcases h2 with h2 | h2
    · have h3 := hres v h2
      rw [hout2 v hv] at h3
      exact absurd h3 (by simp)
    · have h3 : (E0 v).isSome := (hD0 v).1 (by simp [h2])
      have h4 : E0 v = none := hfreshJ v
        ((outBindersJoin_sublist i2 p.instructions hsub2).subset hv)
      rw [h4] at h3
      exact absurd h3 (by simp)
  obtain ⟨E2f, hrun2, hpos2, hjoin2f⟩ :=
    runInstrs_of_chain i2 Ef _ E20 hchain hE2pos hE2neg hndJ2 hdisjJ2
  have houts2base : mapExcept (readAtom Ef) (maskFilter true outU p.outs)
      = .ok (maskFilter true outU outs) :=
    (mapExcept_ok_iff_forall2 _ _ _).2 (maskFilter_forall2 true outU houtsF2)
  have houts2reads : mapExcept (readAtom E2f) (maskFilter true outU p.outs)
      = .ok (maskFilter true outU outs) := by
    refine mapExcept_readAtom_congr Ef E2f _ _ ?_ houts2base
    intro v hv
    simp only [atomVars, List.mem_filterMap] at hv
    obtain ⟨a, hmem, hmatch⟩ := hv
    cases a with
    | lit t => exact absurd hmatch (by simp)
    | var w =>
      have hwv : w = v := by simpa using hmatch
      rw [← hwv]
      have hflag : F' w = some true := hflagouts true _ hmem
      have h5 := (hdom w).1 (by simp [hflag])
      rcases h5 with h5 | h5
      · cases hb : F0 w with
        | none => rw [hb] at h5; exact absurd h5 (by simp)
        | some b =>
          have h6 := hmono w b hb
          rw [hflag] at h6
          have hbtrue : b = true := (Option.some.inj h6).symm
          exact hpos2 w (Or.inr (by rw [hb, hbtrue]))
      · rcases hjsplit w h5 with h6 | h6
        · have h7 := hout1 w h6
          rw [hflag] at h7
          exact absurd h7 (by simp)
        · exact hjoin2f w h6
  have hrun2full : run_program
      ⟨res.dedup ++ (partition_list m p.in_binders).2, i2,
        (partition_list outU p.outs).2, 0, p.name ++ "_partial2"⟩
      (resvals ++ (partition_list m args).2)
      = .ok (maskFilter true outU outs) := by
    simp only [run_program, hpart_in, hpart_args, hpart_outs]
    rw [writeMany_append res.dedup (maskFilter true m p.in_binders) resvals
      (maskFilter true m args) emptyVEnv (by omega), hEr, bindE_ok, hE20, bindE_ok,
      hrun2, bindE_ok]
    exact houts2reads
  have hmerge : merge_lists outU (maskFilter false outU outs)
      (maskFilter true outU outs) = some outs := by
    have h8 := merge_lists_partition outU outs hlenUouts
    rw [hpart_outsv] at h8
    exact h8
  have hpr : partial_run_program p m = some
      (⟨(partition_list m p.in_binders).1, i1,
        (partition_list outU p.outs).1 ++ res.dedup.map Atom.var, 0,
        p.name ++ "_partial1"⟩,
       ⟨res.dedup ++ (partition_list m p.in_binders).2, i2,
        (partition_list outU p.outs).2, 0, p.name ++ "_partial2"⟩,
       outU, res.dedup.length) := by
    simp only [partial_run_program]
    rw [← hF0def]
    rw [hsl]
    simp only [Option.some_bind]
    rw [houtU]
    simp only [Option.map_some']
  exact ⟨_, _, outU, res.dedup.length, hpr, maskFilter false outU outs, resvals,
    maskFilter true outU outs, hrun1full, by omega, hrun2full, hmerge⟩

/-- Two fresh Vars for the partial-evaluation sample program. -/
def vz : Var := ⟨2, tA⟩

def vw : Var := ⟨3, tA⟩

/-- Sample program: inputs x, y; z = add(x, x); w = add(z, y); output w.
With x known and y unknown, z is computable and becomes a residual. -/
def pwProg : Program :=
  ⟨[v0, v1],
   [⟨addOp, [.var v0, .var v0], [vz]⟩, ⟨addOp, [.var vz, .var v1], [vw]⟩],
   [.var vw], 0, "pw"⟩

def ta0 : Tensor := ⟨[2], 0, [1, 2]⟩

def ta1 : Tensor := ⟨[2], 0, [10, 20]⟩

/-- C1 witness: the partial-evaluation correctness theorem applied to the
concrete sample program with mask [false, true]. -/
theorem partial_run_program_spec_witness :
    ∃ p1 p2 outU nres,
      partial_run_program pwProg [false, true] = some (p1, p2, outU, nres) ∧
      ∃ outs1 resvals outs2,
        run_program p1 (partition_list [false, true] [ta0, ta1]).1
          = .ok (outs1 ++ resvals) ∧
        resvals.length = nres ∧
        run_program p2 (resvals ++ (partition_list [false, true] [ta0, ta1]).2)
          = .ok outs2 ∧
        merge_lists outU outs1 outs2 = some [⟨[2], 0, [12, 24]⟩] :=
  partial_run_program_spec pwProg [false, true] [ta0, ta1] [⟨[2], 0, [12, 24]⟩]
    (by decide) (by decide)
    (by
      intro i hi vs os hos
      rcases List.mem_cons.1 hi with rfl | hi
      · simpa using binaryEval_arity tadd vs os hos
      · rcases List.mem_cons.1 hi with rfl | hi
        · simpa using binaryEval_arity tadd vs os hos
        · exact absurd hi (by simp))
    (by rfl)

end Slope
